import Mathlib

/-!
Verification of the dead-links-must-die crawl-and-check engine.

URLs and messages are modelled as `List Char`.  The WHATWG URL constructor
used by the source (`new URL(...)`) is an external capability; it is modelled
here on a canonical fragment of URLs: literal `http` or `https` scheme,
non-empty host containing none of `/ ? #`, explicit path starting with `/`
and free of `? #`, optional query introduced by `?` and free of `#`, and an
optional fragment introduced by `#`.  No percent-encoding, ports, userinfo
or dot-segment collapsing; on this fragment the model agrees with WHATWG
serialization.
-/

namespace DeadLinks

/-- Convert a string literal to the character-list representation. -/
def str (s : String) : List Char := s.data

/-- Character allowed inside a hostname: anything up to the first `/ ? #`. -/
def hostChar (c : Char) : Bool := !(c == '/' || c == '?' || c == '#')

/-- Character allowed inside a path: anything up to the first `? #`. -/
def pathChar (c : Char) : Bool := !(c == '?' || c == '#')

/-- Character allowed inside a query: anything up to the first `#`. -/
def queryChar (c : Char) : Bool := !(c == '#')

/-- The components of a parsed URL, mirroring the fields of the WHATWG
`URL` object that the source reads: `protocol`, `hostname`, `pathname`,
`search` and `hash` (the last two including their leading `?` and `#`). -/
structure UrlParts where
  scheme : List Char
  host : List Char
  path : List Char
  query : List Char
  hash : List Char
  deriving DecidableEq

/-- Split off the scheme of an absolute http(s) URL. -/
def splitScheme (s : List Char) : Option (List Char × List Char) :=
  if (str "https://").isPrefixOf s then some (str "https", s.drop 8)
  else if (str "http://").isPrefixOf s then some (str "http", s.drop 7)
  else none

/-- Model of `new URL(s)` on the canonical fragment: split the input into
scheme, host, path, query and fragment.  An absent path serializes as `/`,
as in WHATWG.  Returns `none` where the constructor would throw. -/
def parseUrl (s : List Char) : Option UrlParts :=
  match splitScheme s with
  | none => none
  | some (sch, rest) =>
    let host := rest.takeWhile hostChar
    let r1 := rest.dropWhile hostChar
    if host = [] then none
    else
      let p0 := r1.takeWhile pathChar
      let r2 := r1.dropWhile pathChar
      let path := if p0 = [] then ['/'] else p0
      let query := r2.takeWhile queryChar
      let hash := r2.dropWhile queryChar
      some ⟨sch, host, path, query, hash⟩

/-- Model of the `href` serializer of the WHATWG `URL` object. -/
def href (u : UrlParts) : List Char :=
  u.scheme ++ str "://" ++ u.host ++ u.path ++ u.query ++ u.hash

/-- `normalizeUrl` from the crawler: parse the URL, clear the fragment, take
the serialization, and strip a single trailing slash unless the path is the
root.  Returns `none` where the source returns `null`. -/
def normalizeUrl (s : List Char) : Option (List Char) :=
  match parseUrl s with
  | none => none
  | some parsed =>
    let parsed := { parsed with hash := [] }
    let normalized := href parsed
    if normalized.getLast? = some '/' ∧ parsed.path ≠ str "/" then
      some normalized.dropLast
    else
      some normalized

/-- `getDomain` from the checker: the hostname of a parseable URL. -/
def getDomain (s : List Char) : Option (List Char) :=
  match parseUrl s with
  | none => none
  | some parsed => some parsed.host

/-- `isInternalUrl` from the crawler: the URL parses and its hostname equals
the hostname of the crawl base. -/
def isInternalUrl (baseHost : List Char) (s : List Char) : Bool :=
  match parseUrl s with
  | none => false
  | some parsed => parsed.host = baseHost

/-- `toAbsoluteUrl` from the crawler, on the absolute fragment of the model:
`new URL(url, base).href` with `url` already absolute ignores the base and
returns the canonical serialization. -/
def toAbsoluteUrl (s : List Char) (_base : List Char) : Option (List Char) :=
  match parseUrl s with
  | none => none
  | some parsed => some (href parsed)

/-! ## Crawl scheduler (crawler module)

`crawlWebsite` keeps a `visited` set, a `crawling` set and a `toVisit`
queue, and runs `crawlPage` on many URLs concurrently.  Each `crawlPage`
call runs synchronously up to its single suspension point (the page fetch)
and then synchronously afterwards, so a crawl execution is an interleaving
of atomic `start` steps (the guard, the visited and crawling insertions and
the fetch issue) and atomic `finish` steps (the post-fetch processing).
The step function below embeds those two halves of `crawlPage`; a trace is
an arbitrary list of steps, the scheduler and the network choosing the
interleaving and the fetch outcomes.  The `fetched` and `errored` fields
are observation logs recording issued fetches and failed fetches; they are
not source state and no step reads them. -/

/-- A link or image reference extracted from a page. -/
structure Link where
  url : List Char
  text : List Char
  type : List Char
  deriving DecidableEq

/-- The record produced for one crawled page. -/
structure PageData where
  url : List Char
  title : List Char
  links : List Link
  linksCount : Nat
  imagesCount : Nat
  error : Option (List Char)
  deriving DecidableEq

/-- The page record pushed when a fetch fails. -/
def errorPage (n msg : List Char) : PageData :=
  ⟨n, str "Error loading page", [], 0, 0, some msg⟩

/-- The mutable state of one `crawlWebsite` run. -/
structure CrawlState where
  baseHost : List Char
  visited : List (List Char)
  crawling : List (List Char)
  toVisit : List (List Char)
  pages : List PageData
  fetched : List (List Char)
  errored : List ((List Char) × (List Char))
  deriving DecidableEq

/-- The guard at the head of `crawlPage`: normalize the URL and claim it
unless it is already in the visited or crawling set.  Returns the canonical
URL when the caller now owns fetching it. -/
def claimUrl (s : CrawlState) (url : List Char) : Option (List Char) :=
  match normalizeUrl url with
  | none => none
  | some n => if n ∈ s.visited ∨ n ∈ s.crawling then none else some n

/-- The state change of a successful claim: the URL enters the visited and
crawling sets and the fetch is issued (logged in `fetched`). -/
def markStarted (s : CrawlState) (n : List Char) : CrawlState :=
  { s with visited := s.visited ++ [n], crawling := s.crawling ++ [n],
           fetched := s.fetched ++ [n] }

/-- The base host update performed after a fetch: when the final URL after
redirects differs from the requested one and parses to a different host,
that host becomes the crawl origin. -/
def updateBaseHost (s : CrawlState) (n : List Char) (finalUrl : Option (List Char)) :
    CrawlState :=
  match finalUrl with
  | none => s
  | some f =>
    if f ≠ n then
      match parseUrl f with
      | some nb => if nb.host ≠ s.baseHost then { s with baseHost := nb.host } else s
      | none => s
    else s

/-- One iteration of the anchor-extraction loop of `crawlPage`: resolve the
href against the page, record the reference, and append a new internal URL
to `toVisit` when its canonical form is in neither the visited nor the
crawling set and the absolute URL is not already queued. -/
def processAnchor (n : List Char) (acc : CrawlState × List Link)
    (h : (List Char) × (List Char)) : CrawlState × List Link :=
  match toAbsoluteUrl h.1 n with
  | none => acc
  | some a =>
    let links := acc.2 ++ [⟨a, h.2, str "link"⟩]
    let s := acc.1
    if isInternalUrl s.baseHost a then
      match normalizeUrl a with
      | some m =>
        if m ∉ s.visited ∧ m ∉ s.crawling ∧ a ∉ s.toVisit then
          ({ s with toVisit := s.toVisit ++ [a] }, links)
        else (s, links)
      | none => (s, links)
    else (s, links)

/-- The image-extraction loop of `crawlPage`: images are recorded but never
enqueued. -/
def extractImages (n : List Char) (imgs : List ((List Char) × (List Char))) : List Link :=
  imgs.filterMap fun h => (toAbsoluteUrl h.1 n).map fun a => ⟨a, h.2, str "image"⟩

/-- The post-fetch half of `crawlPage` for a successful HTML response:
update the base host, extract anchors and images, enqueue new internal
URLs, push the page record and leave the crawling set. -/
def finishHtml (s : CrawlState) (n title : List Char)
    (anchors imgs : List ((List Char) × (List Char))) (finalUrl : Option (List Char)) :
    CrawlState :=
  let s := updateBaseHost s n finalUrl
  let sl := anchors.foldl (processAnchor n) (s, [])
  let images := extractImages n imgs
  let page : PageData :=
    ⟨n, title, sl.2 ++ images, sl.2.length, images.length, none⟩
  { sl.1 with pages := sl.1.pages ++ [page], crawling := sl.1.crawling.erase n }

/-- The post-fetch half of `crawlPage` for a successful non-HTML response:
leave the crawling set without producing a page record. -/
def finishNotHtml (s : CrawlState) (n : List Char) (finalUrl : Option (List Char)) :
    CrawlState :=
  let s := updateBaseHost s n finalUrl
  { s with crawling := s.crawling.erase n }

/-- The catch branch of `crawlPage`: a failed fetch pushes a terminal page
record with the error message and no references, and leaves the crawling
set.  The failure is logged in `errored`. -/
def finishErr (s : CrawlState) (n msg : List Char) : CrawlState :=
  { s with pages := s.pages ++ [errorPage n msg],
           crawling := s.crawling.erase n,
           errored := s.errored ++ [(n, msg)] }

/-- One atomic step of a concurrent crawl execution. -/
inductive CrawlAction where
  | start (url : List Char)
  | finishHtml (n title : List Char) (anchors imgs : List ((List Char) × (List Char)))
      (finalUrl : Option (List Char))
  | finishNotHtml (n : List Char) (finalUrl : Option (List Char))
  | finishErr (n msg : List Char)

/-- Apply one step.  A `start` first leaves the queue (the main loop splices
the batch out of `toVisit` before calling `crawlPage`) and then runs the
claim guard; a `finish` step for a URL that is not in flight is a no-op, so
every action list is a valid interleaving. -/
def stepCrawl (s : CrawlState) (a : CrawlAction) : CrawlState :=
  match a with
  | .start url =>
    let s := { s with toVisit := s.toVisit.erase url }
    match claimUrl s url with
    | none => s
    | some n => markStarted s n
  | .finishHtml n title anchors imgs finalUrl =>
    if n ∈ s.crawling then finishHtml s n title anchors imgs finalUrl else s
  | .finishNotHtml n finalUrl =>
    if n ∈ s.crawling then finishNotHtml s n finalUrl else s
  | .finishErr n msg =>
    if n ∈ s.crawling then finishErr s n msg else s

/-- Run a crawl trace from a state. -/
def runCrawl (s : CrawlState) (acts : List CrawlAction) : CrawlState :=
  acts.foldl stepCrawl s

/-- The initial state of `crawlWebsite`. -/
def initCrawl (startUrl : List Char) : CrawlState :=
  ⟨(getDomain startUrl).getD [], [], [], [startUrl], [], [], []⟩

/-! ## Fetch dispatch of `crawlPage`

`fetchPage` rejects only on transport errors, timeouts and redirect
overflow: it inspects the status code solely to follow a 3xx with a
location header, and resolves every other response whatever its status.
`crawlPage` dispatches a resolved response on its content type alone (the
status code is never read): HTML pages are processed into a normal page
record, anything else leaves no record, and only a rejected fetch reaches
the catch branch that writes the terminal error record. -/

/-- Substring test, as `String.prototype.includes`. -/
def includesSub (needle : List Char) : List Char → Bool
  | [] => needle.isPrefixOf []
  | c :: t => needle.isPrefixOf (c :: t) || includesSub needle t

/-- An HTTP response as `fetchPage` resolves it: the status code, the
location header, the content type and the anchor hrefs of the body. -/
structure FetchResponse where
  status : Nat
  location : Option (List Char)
  contentType : List Char
  hrefs : List (List Char)

/-- The redirect loop of `fetchPage`: follow a 3xx with a location header
(the header taken absolute, where `new URL(loc, url)` is the identity),
reject after five redirects, and resolve any other response together with
the URL of its final request.  A transport error or timeout is the
oracle's `.error`. -/
def fetchPageGo (get : List Char → Except (List Char) FetchResponse) :
    Nat → List Char → Except (List Char) (FetchResponse × List Char)
  | 0, _ => .error (str "Too many redirects")
  | fuel + 1, url =>
    match get url with
    | .error e => .error e
    | .ok r =>
      if 300 ≤ r.status ∧ r.status < 400 ∧ r.location.isSome then
        fetchPageGo get fuel (r.location.getD [])
      else .ok (r, url)

/-- `fetchPage` from the initial call: the guard `redirectCount > 5`
admits six requests. -/
def fetchPageModel (get : List Char → Except (List Char) FetchResponse)
    (url : List Char) : Except (List Char) (FetchResponse × List Char) :=
  fetchPageGo get 6 url

/-- `crawlPage` with the fetch outcome explicit: after a successful claim,
a rejected fetch takes the catch branch (`finishErr`); a resolved response
is dispatched on its content type alone, its HTTP status never being
read. -/
def crawlPageDispatch (get : List Char → Except (List Char) FetchResponse)
    (s : CrawlState) (url : List Char) : CrawlState :=
  match claimUrl s url with
  | none => s
  | some n =>
    let s1 := markStarted s n
    match fetchPageModel get n with
    | .error msg => finishErr s1 n msg
    | .ok (r, finalUrl) =>
      if includesSub (str "text/html") r.contentType then
        finishHtml s1 n [] (r.hrefs.map fun h => (h, [])) [] (some finalUrl)
      else finishNotHtml s1 n (some finalUrl)

/-! ## Deterministic crawl (for the completeness claim)

A site is a finite table from canonical URLs to the href lists of their
HTML bodies; every fetch succeeds, returns HTML and is not redirected.
Under this assumption each `crawlPage` runs to completion at its suspension
point, so the whole crawl is the main loop executing batches sequentially:
check the page cap, splice a batch out of `toVisit`, run `crawlPage` on
each URL.  Fuel bounds the number of outer loop iterations; `none` means
the fuel ran out before the crawl terminated. -/

def CRAWL_CONCURRENCY : Nat := 20
def MAX_PAGES : Nat := 10000

/-- The hrefs of the anchors of the page at a canonical URL. -/
def siteHrefs (site : List ((List Char) × List (List Char))) (n : List Char) :
    List (List Char) :=
  ((site.find? fun p => p.1 == n).map fun p => p.2).getD []

/-- `crawlPage` run to completion on an all-success HTML site. -/
def crawlPageSync (site : List ((List Char) × List (List Char))) (s : CrawlState)
    (url : List Char) : CrawlState :=
  match claimUrl s url with
  | none => s
  | some n =>
    finishHtml (markStarted s n) n [] ((siteHrefs site n).map fun h => (h, [])) []
      (some n)

/-- The main loop of `crawlWebsite` under the deterministic schedule. -/
def crawlLoop (site : List ((List Char) × List (List Char))) (fuel : Nat)
    (s : CrawlState) : Option CrawlState :=
  match fuel with
  | 0 => none
  | fuel + 1 =>
    if s.toVisit = [] then some s
    else if MAX_PAGES ≤ s.visited.length then some s
    else
      let bs := min (CRAWL_CONCURRENCY - s.crawling.length) s.toVisit.length
      let batch := s.toVisit.take bs
      let s1 := { s with toVisit := s.toVisit.drop bs }
      crawlLoop site fuel (batch.foldl (crawlPageSync site) s1)

/-- `crawlWebsite` on an all-success HTML site. -/
def crawlWebsiteModel (site : List ((List Char) × List (List Char)))
    (startUrl : List Char) (fuel : Nat) : Option CrawlState :=
  crawlLoop site fuel (initCrawl startUrl)

/-- Same-origin reachability from the seed through anchor hrefs: the
canonical seed is reachable, and so is the canonical form of every
same-origin link found on a reachable page. -/
inductive Reaches (site : List ((List Char) × List (List Char))) (host : List Char)
    (seed : List Char) : List Char → Prop where
  | base : Reaches site host seed seed
  | step {c h a m : List Char} : Reaches site host seed c → h ∈ siteHrefs site c →
      toAbsoluteUrl h c = some a → isInternalUrl host a = true →
      normalizeUrl a = some m → Reaches site host seed m

/-- The inductive invariant of the deterministic crawl, relative to a list
of URLs spliced out of the queue but not yet processed (`pending`): the
origin is fixed, nothing is in flight between steps, the visited list is
duplicate-free and sound for reachability, queued and pending URLs are
sound, every visited URL has its page record, and the canonical seed and
every same-origin out-edge of a visited page are covered by the visited
list, the queue or the pending batch. -/
def SyncInvP (site : List ((List Char) × List (List Char))) (host seed : List Char)
    (s : CrawlState) (pending : List (List Char)) : Prop :=
  s.baseHost = host ∧
  s.crawling = [] ∧
  s.visited.Nodup ∧
  (∀ v ∈ s.visited, Reaches site host seed v) ∧
  (∀ b ∈ s.toVisit, ∀ m, normalizeUrl b = some m → Reaches site host seed m) ∧
  (∀ b ∈ pending, ∀ m, normalizeUrl b = some m → Reaches site host seed m) ∧
  (∀ v ∈ s.visited, v ∈ s.pages.map (fun p => p.url)) ∧
  (seed ∈ s.visited ∨ (∃ b ∈ s.toVisit, normalizeUrl b = some seed) ∨
    (∃ b ∈ pending, normalizeUrl b = some seed)) ∧
  (∀ v ∈ s.visited, ∀ hr ∈ siteHrefs site v, ∀ a, toAbsoluteUrl hr v = some a →
    isInternalUrl host a = true → ∀ m, normalizeUrl a = some m →
    m ∈ s.visited ∨ (∃ b ∈ s.toVisit, normalizeUrl b = some m) ∨
    (∃ b ∈ pending, normalizeUrl b = some m))

/-! ## Link validator (checker module)

The domain-grouped checker.  Network outcomes are modelled by an oracle
mapping a URL to the `checkUrl` result for it; the structure of `checkUrl`
itself (probe method fallback and retries) is embedded separately below
with a per-call oracle.  Each result record carries a `log` of the URLs for
which a network check was actually issued; the logs are observations, not
source state. -/

def MAX_RETRIES : Nat := 2
def CIRCUIT_BREAKER_THRESHOLD : Nat := 5

/-- The result of one `checkUrl` call. -/
structure CheckResult where
  ok : Bool
  status : Nat
  message : List Char
  redirected : Bool
  finalUrl : List Char
  deriving DecidableEq

/-- An occurrence of a link as collected by `checkLinks`: the page it was
found on together with the reference itself. -/
structure RawOcc where
  page : List Char
  link : Link
  deriving DecidableEq

/-- An occurrence as reported in the final results. -/
structure Occ where
  page : List Char
  text : List Char
  type : List Char
  deriving DecidableEq

/-- The occurrence projection applied when a verdict is emitted. -/
def mkOcc (o : RawOcc) : Occ := ⟨o.page, o.link.text, o.link.type⟩

/-- A broken-link or warning verdict. -/
structure Verdict where
  url : List Char
  status : Nat
  message : List Char
  occurrences : List Occ
  deriving DecidableEq

/-- A redirect verdict. -/
structure RedirectVerdict where
  url : List Char
  redirectTo : List Char
  occurrences : List Occ
  deriving DecidableEq

/-- The accumulator of `checkDomainLinks`. -/
structure DomainResults where
  checked : Nat
  broken : List Verdict
  warnings : List Verdict
  redirects : List RedirectVerdict
  circuitBroken : Bool
  log : List (List Char)
  deriving DecidableEq

def emptyDomainResults : DomainResults := ⟨0, [], [], [], false, []⟩

/-- Strip one leading `www.` from a hostname. -/
def stripWww (h : List Char) : List Char :=
  if (str "www.").isPrefixOf h then h.drop 4 else h

/-- Strip one trailing slash from a pathname. -/
def stripTrailingSlash (p : List Char) : List Char :=
  if p.getLast? = some '/' then p.dropLast else p

/-- `isTrivialRedirect`: same host up to a `www.` prefix and same path up to
a trailing slash. -/
def isTrivialRedirect (originalUrl finalUrl : List Char) : Bool :=
  match parseUrl originalUrl, parseUrl finalUrl with
  | some orig, some fin =>
    let origHost := stripWww orig.host
    let finHost := stripWww fin.host
    (origHost == finHost && orig.path == fin.path) ||
      (origHost == finHost && stripTrailingSlash orig.path == stripTrailingSlash fin.path)
  | _, _ => false

/-- The consecutive-failure counter update of `checkDomainLinks`: increment
on a status-0 or timeout result, reset to zero on any success or any
definitive HTTP result. -/
def failureStep (cf : Nat) (r : CheckResult) : Nat :=
  if r.status = 0 ∨ includesSub (str "ECONNABORTED") r.message then cf + 1 else 0

/-- The warning used for links skipped by the circuit breaker. -/
def unableWarning (e : (List Char) × List RawOcc) : Verdict :=
  ⟨e.1, 0, str "Unable to verify (domain rate limited)", e.2.map mkOcc⟩

/-- Routing of one check result in `checkDomainLinks`: a 403 or 401 failure
becomes a warning, any other failure a broken verdict, and a non-trivially
redirected success a redirect verdict.  The contribution is prepended to
the results of the remaining links. -/
def consResult (u : List Char) (occ : List RawOcc) (r : CheckResult)
    (rest : DomainResults) : DomainResults :=
  let base := { rest with checked := rest.checked + 1, log := u :: rest.log }
  if !r.ok then
    if r.status = 403 ∨ r.status = 401 then
      { base with warnings :=
          ⟨u, r.status, r.message ++ str " (may be accessible to users)", occ.map mkOcc⟩ ::
            base.warnings }
    else
      { base with broken := ⟨u, r.status, r.message, occ.map mkOcc⟩ :: base.broken }
  else if r.redirected && !isTrivialRedirect u r.finalUrl then
    { base with redirects := ⟨u, r.finalUrl, occ.map mkOcc⟩ :: base.redirects }
  else base

/-- A processed prefix together with unable-to-verify warnings for an
unprocessed tail: the shape of a `checkDomainLinks` run split at the point
where the circuit breaker trips. -/
def mergeSplit (pre : DomainResults) (tw : List Verdict) : DomainResults :=
  { pre with warnings := pre.warnings ++ tw,
             circuitBroken := pre.circuitBroken || !tw.isEmpty }

/-- The loop of `checkDomainLinks`, carrying the consecutive-failure
counter.  When the counter has reached the threshold at the head of an
iteration, the current and all remaining links become unable-to-verify
warnings and the loop stops without further checks. -/
def cdlGo (oracle : List Char → CheckResult) (cf : Nat) :
    List ((List Char) × List RawOcc) → DomainResults
  | [] => emptyDomainResults
  | e :: rest =>
    if CIRCUIT_BREAKER_THRESHOLD ≤ cf then
      { emptyDomainResults with warnings := (e :: rest).map unableWarning,
                                circuitBroken := true }
    else
      let r := oracle e.1
      consResult e.1 e.2 r (cdlGo oracle (failureStep cf r) rest)

/-- `checkDomainLinks` on one domain group. -/
def checkDomainLinksModel (oracle : List Char → CheckResult)
    (links : List ((List Char) × List RawOcc)) : DomainResults :=
  cdlGo oracle 0 links

/-- The same loop with the circuit breaker never firing: the reference
behaviour for the prefix processed before the breaker trips. -/
def processAll (oracle : List Char → CheckResult) :
    List ((List Char) × List RawOcc) → DomainResults
  | [] => emptyDomainResults
  | e :: rest => consResult e.1 e.2 (oracle e.1) (processAll oracle rest)

/-- The consecutive-failure counter after the first `k` links, ignoring the
breaker. -/
def cfAfter (oracle : List Char → CheckResult)
    (links : List ((List Char) × List RawOcc)) (k : Nat) : Nat :=
  (links.take k).foldl (fun cf e => failureStep cf (oracle e.1)) 0

/-! ### `checkLinks`: collection, grouping, DNS pre-check -/

/-- Insertion-ordered multimap update, as a JS `Map` of arrays: append to
the entry of an existing key, otherwise add the key at the end. -/
def pushAssoc {β : Type} : List ((List Char) × List β) → List Char → β →
    List ((List Char) × List β)
  | [], u, o => [(u, [o])]
  | e :: rest, u, o =>
    if e.1 = u then (e.1, e.2 ++ [o]) :: rest else e :: pushAssoc rest u o

/-- The inner loop of the link collection: insert every link of one page. -/
def addPageLinks (m : List ((List Char) × List RawOcc)) (p : PageData) :
    List ((List Char) × List RawOcc) :=
  p.links.foldl (fun m l => pushAssoc m l.url ⟨p.url, l⟩) m

/-- The link-collection loop of `checkLinks`: one entry per distinct raw
URL, with the list of its occurrences. -/
def collectLinks (pages : List PageData) : List ((List Char) × List RawOcc) :=
  pages.foldl addPageLinks []

/-- The crawled-pages filter of `checkLinks`: drop every collected URL that
is itself in the crawled set. -/
def filterCrawled (all : List ((List Char) × List RawOcc))
    (crawledPages : List (List Char)) : List ((List Char) × List RawOcc) :=
  all.filter fun e => !decide (e.1 ∈ crawledPages)

/-- One step of the domain-grouping loop; a URL with no parseable domain is
dropped. -/
def groupStep (g : List ((List Char) × List ((List Char) × List RawOcc)))
    (e : (List Char) × List RawOcc) :
    List ((List Char) × List ((List Char) × List RawOcc)) :=
  match getDomain e.1 with
  | none => g
  | some d => pushAssoc g d e

/-- The domain-grouping loop of `checkLinks`. -/
def groupByDomain (filtered : List ((List Char) × List RawOcc)) :
    List ((List Char) × List ((List Char) × List RawOcc)) :=
  filtered.foldl groupStep []

/-- `checkDomainDNS`: localhost and loopback addresses are exempt from the
DNS pre-check; otherwise the resolver oracle answers, `none` meaning the
domain resolves and `some code` a DNS failure with that code. -/
def checkDomainDNSModel (dns : List Char → Option (List Char)) (domain : List Char) :
    Option (List Char) :=
  if domain = str "localhost" ∨ domain = str "127.0.0.1" ∨
      (str "127.").isPrefixOf domain then none
  else dns domain

/-- The broken verdicts produced for the links of one dead domain. -/
def deadDomainVerdicts (err : List Char) (entries : List ((List Char) × List RawOcc)) :
    List Verdict :=
  entries.map fun e => ⟨e.1, 0, str "DNS lookup failed: " ++ err, e.2.map mkOcc⟩

/-- The final results of `checkLinks` (the per-page breakdown and the count
summary, which only re-aggregate these lists, are not modelled). -/
structure CheckerResults where
  brokenLinks : List Verdict
  warnings : List Verdict
  redirects : List RedirectVerdict
  linksSkipped : Nat
  log : List (List Char)
  deriving DecidableEq

/-- The unique uncrawled links considered by `checkLinks`. -/
def filteredLinks (pages : List PageData) (crawledPages : List (List Char)) :
    List ((List Char) × List RawOcc) :=
  filterCrawled (collectLinks pages) crawledPages

/-- The domain groups considered by `checkLinks`. -/
def domainGroups (pages : List PageData) (crawledPages : List (List Char)) :
    List ((List Char) × List ((List Char) × List RawOcc)) :=
  groupByDomain (filteredLinks pages crawledPages)

/-- The link lists of the domains whose DNS pre-check failed, each with its
failure code. -/
def deadGroups (pages : List PageData) (crawledPages : List (List Char))
    (dns : List Char → Option (List Char)) :
    List ((List ((List Char) × List RawOcc)) × (List Char)) :=
  (domainGroups pages crawledPages).filterMap fun g =>
    match checkDomainDNSModel dns g.1 with
    | some err => some (g.2, err)
    | none => none

/-- The domain groups that survive the DNS pre-check. -/
def liveGroups (pages : List PageData) (crawledPages : List (List Char))
    (dns : List Char → Option (List Char)) :
    List ((List Char) × List ((List Char) × List RawOcc)) :=
  (domainGroups pages crawledPages).filter fun g =>
    (checkDomainDNSModel dns g.1).isNone

/-- The `checkDomainLinks` results of the surviving groups (all of them run;
`Promise.all` keeps their order). -/
def domainResultsList (pages : List PageData) (crawledPages : List (List Char))
    (dns : List Char → Option (List Char)) (oracle : List Char → CheckResult) :
    List DomainResults :=
  (liveGroups pages crawledPages dns).map fun g => checkDomainLinksModel oracle g.2

/-- `checkLinks` of the domain-grouped checker: collect the distinct raw
link URLs with their occurrences, drop the crawled ones, group by domain,
remove the domains whose DNS pre-check fails (their links become broken
verdicts with a DNS message, and no check is issued for them), and run
`checkDomainLinks` on every remaining group. -/
def checkLinksModel (pages : List PageData) (crawledPages : List (List Char))
    (dns : List Char → Option (List Char)) (oracle : List Char → CheckResult) :
    CheckerResults :=
  let domainResults := domainResultsList pages crawledPages dns oracle
  { brokenLinks :=
      ((deadGroups pages crawledPages dns).flatMap fun ge => deadDomainVerdicts ge.2 ge.1) ++
        domainResults.flatMap (·.broken),
    warnings := domainResults.flatMap (·.warnings),
    redirects := domainResults.flatMap (·.redirects),
    linksSkipped :=
      (collectLinks pages).length - (filteredLinks pages crawledPages).length,
    log := domainResults.flatMap (·.log) }

/-! ### The legacy checker (simple checker module)

The earlier `checkLinks`: no crawled filter, no domain grouping, no DNS
pre-check and no warnings list; every failed check goes to the broken
list. -/

/-- The results of the legacy `checkLinks`. -/
structure LegacyResults where
  brokenLinks : List Verdict
  redirects : List RedirectVerdict
  log : List (List Char)
  deriving DecidableEq

/-- The check loop of the legacy `checkLinks`. -/
def legacyGo (oracle : List Char → CheckResult) :
    List ((List Char) × List RawOcc) → LegacyResults
  | [] => ⟨[], [], []⟩
  | e :: rest =>
    let r := oracle e.1
    let tail := legacyGo oracle rest
    let tail := { tail with log := e.1 :: tail.log }
    if !r.ok then
      { tail with brokenLinks := ⟨e.1, r.status, r.message, e.2.map mkOcc⟩ :: tail.brokenLinks }
    else if r.redirected then
      { tail with redirects := ⟨e.1, r.finalUrl, e.2.map mkOcc⟩ :: tail.redirects }
    else tail

/-- The legacy `checkLinks`. -/
def legacyCheckLinks (pages : List PageData) (oracle : List Char → CheckResult) :
    LegacyResults :=
  legacyGo oracle (collectLinks pages)

/-! ### `checkUrl`: probe method fallback and retries

The per-call network oracle maps the index of the call (within one
`checkUrl` invocation) and its HTTP method to a result; the log records the
methods of the issued calls in order.  The recursion counts the attempts
remaining below `MAX_RETRIES`. -/

/-- A probe method. -/
inductive Method where
  | head
  | get
  deriving DecidableEq

/-- The attempt loop of `checkUrl`.  A HEAD result that is ok or has a
definitive status of at least 400 is returned at once; otherwise a HEAD
status of 404, 405 or 0 triggers one full-body GET, whose result is
returned when ok; then the HEAD result is returned on the last attempt, a
status-0 HEAD result is retried, and anything else is returned. -/
def checkUrlGo (oracle : Nat → Method → CheckResult) (remaining : Nat)
    (log : List Method) : CheckResult × List Method :=
  let headResult := oracle log.length Method.head
  let log1 := log ++ [Method.head]
  if headResult.ok || decide (400 ≤ headResult.status) then (headResult, log1)
  else
    let fb : Option CheckResult × List Method :=
      if headResult.status = 404 ∨ headResult.status = 405 ∨ headResult.status = 0 then
        let getResult := oracle log1.length Method.get
        let log2 := log1 ++ [Method.get]
        if getResult.ok then (some getResult, log2) else (none, log2)
      else (none, log1)
    match fb with
    | (some r, lg) => (r, lg)
    | (none, lg) =>
      match remaining with
      | 0 => (headResult, lg)
      | remaining + 1 =>
        if headResult.status = 0 then checkUrlGo oracle remaining lg
        else (headResult, lg)

/-- `checkUrl` with its retry budget. -/
def checkUrlModel (oracle : Nat → Method → CheckResult) : CheckResult × List Method :=
  checkUrlGo oracle MAX_RETRIES []

/-! ### `checkPageLinks`: the streaming per-page checker -/

/-- The module-level bindings of the domain-grouped checker module; the
identifier looked up by the batch loop of `checkPageLinks` is resolved
against these. -/
def moduleConst (name : List Char) : Option Nat :=
  (([(str "CONCURRENCY_PER_DOMAIN", 3), (str "DOMAIN_DELAY_MS", 500),
     (str "TIMEOUT", 10000), (str "MAX_RETRIES", 2),
     (str "CIRCUIT_BREAKER_THRESHOLD", 5), (str "DNS_TIMEOUT", 5000)] :
    List ((List Char) × Nat)).find? fun p => p.1 == name).map fun p => p.2

/-- The batch loop of `checkPageLinks`: while the index is below the length
of the filtered list, evaluate the batch bounds (which reads the identifier
`CONCURRENCY`; an unbound identifier raises a `ReferenceError`), check the
batch, and advance the index by the batch width.  Returns the URLs checked,
or the error raised. -/
def cplGo (oracle : List Char → CheckResult) (links : List Link) :
    Nat → Nat → Except (List Char) (List (List Char))
  | i, fuel =>
    if links.length ≤ i then .ok []
    else
      match fuel with
      | 0 => .error (str "out of fuel")
      | fuel + 1 =>
        match moduleConst (str "CONCURRENCY") with
        | none => .error (str "ReferenceError: CONCURRENCY is not defined")
        | some c =>
          let batch := (links.drop i).take c
          let _ := batch.map fun l => oracle l.url
          match cplGo oracle links (i + c) fuel with
          | .ok rest => .ok (batch.map (·.url) ++ rest)
          | .error e => .error e

/-- `checkPageLinks`: filter out the crawled links of one page, then run
the batch loop. -/
def checkPageLinksModel (page : PageData) (crawledPages : List (List Char))
    (oracle : List Char → CheckResult) : Except (List Char) (List (List Char)) :=
  let linksToCheck := page.links.filter fun l => !decide (l.url ∈ crawledPages)
  cplGo oracle linksToCheck 0 (linksToCheck.length + 1)

/-! ## Concrete inputs used by witnesses and counterexamples -/

/-- A concrete trace: the seed is claimed and its fetch fails. -/
def errTrace : List CrawlAction :=
  [CrawlAction.start (str "http://x.com"),
   CrawlAction.finishErr (str "http://x.com/") (str "ETIMEDOUT")]

/-- The inductive invariant of the crawl scheduler: the fetch log is the
visited list, the visited list has no duplicates, the crawling set is a
duplicate-free subset of visited, page urls are duplicate-free, every page
belongs to a visited URL that is no longer in flight, and every logged
fetch failure has its error record among the pages. -/
def CrawlInv (s : CrawlState) : Prop :=
  s.fetched = s.visited ∧
  s.visited.Nodup ∧
  s.crawling.Nodup ∧
  (∀ n ∈ s.crawling, n ∈ s.visited) ∧
  (s.pages.map (fun p => p.url)).Nodup ∧
  (∀ p ∈ s.pages, p.url ∈ s.visited ∧ p.url ∉ s.crawling) ∧
  (∀ pr ∈ s.errored, errorPage pr.1 pr.2 ∈ s.pages)

/-- An oracle whose HEAD probes answer 404 while its GET probes succeed:
a server that rejects the lightweight probe method. -/
def head404Oracle : Nat → Method → CheckResult := fun _ m =>
  match m with
  | Method.head => ⟨false, 404, str "Not Found", false, []⟩
  | Method.get => ⟨true, 200, str "", false, []⟩

/-- An oracle under which every check times out at the transport level. -/
def timeoutOracle : List Char → CheckResult := fun _ =>
  ⟨false, 0, str "ECONNABORTED", false, []⟩

/-- Six links of one domain, for the circuit-breaker witness. -/
def sixLinks : List ((List Char) × List RawOcc) :=
  [(str "http://d.com/1", []), (str "http://d.com/2", []), (str "http://d.com/3", []),
   (str "http://d.com/4", []), (str "http://d.com/5", []), (str "http://d.com/6", [])]

/-- An oracle under which every check succeeds without redirect. -/
def okOracle : List Char → CheckResult := fun _ => ⟨true, 200, str "", false, str ""⟩

/-- An oracle under which every check answers 403 Forbidden. -/
def status403Oracle : List Char → CheckResult := fun _ =>
  ⟨false, 403, str "Forbidden", false, str ""⟩

/-- A resolver under which every domain resolves. -/
def resolveAllDns : List Char → Option (List Char) := fun _ => none

/-- A resolver under which every domain fails with ENOTFOUND. -/
def noDns : List Char → Option (List Char) := fun _ => some (str "ENOTFOUND")

/-- A single page linking to one external URL. -/
def onePage : List PageData :=
  [⟨str "http://x.com", str "t", [⟨str "http://y.org/p", str "", str "link"⟩], 1, 0, none⟩]

/-- A page whose only link differs from a crawled canonical URL by a
trailing slash. -/
def slashPage : List PageData :=
  [⟨str "http://x.com", str "t", [⟨str "http://x.com/a/", str "", str "link"⟩], 1, 0, none⟩]

/-- The crawled set containing the canonical form of the slash link. -/
def slashCrawled : List (List Char) := [str "http://x.com", str "http://x.com/a"]

/-- The terminal state of the deterministic crawl of the empty site from a
one-page seed. -/
def c2WitnessState : CrawlState :=
  (crawlWebsiteModel [] (str "http://x.com/a") 2).getD (initCrawl (str "http://x.com/a"))

/-- A server answering every request with HTTP 404 and an HTML body holding
one link. -/
def ok404Html : List Char → Except (List Char) FetchResponse :=
  fun _ => .ok ⟨404, none, str "text/html", [str "http://x.com/b"]⟩

/-- A server answering every request with HTTP 404 and a plain-text
body. -/
def ok404Plain : List Char → Except (List Char) FetchResponse :=
  fun _ => .ok ⟨404, none, str "text/plain", []⟩

/-! ## Theorems -/

/-! ### Sanity checks of the URL model -/

example : normalizeUrl (str "http://x.com/a/") = some (str "http://x.com/a") := by decide
example : normalizeUrl (str "http://x.com/a") = some (str "http://x.com/a") := by decide
example : normalizeUrl (str "http://x.com") = some (str "http://x.com/") := by decide
example : normalizeUrl (str "http://x.com/a#f") = some (str "http://x.com/a") := by decide
example : normalizeUrl (str "http://x.com/a//") = some (str "http://x.com/a/") := by decide
example : getDomain (str "https://y.org/p?q") = some (str "y.org") := by decide
example : isInternalUrl (str "x.com") (str "http://x.com/b") = true := by decide
example : normalizeUrl (str "nota url") = none := by decide

/-! ### C10: the streaming checker raises a ReferenceError -/

/-- The identifier `CONCURRENCY` is not bound in the domain-grouped checker
module. -/
lemma moduleConst_concurrency : moduleConst (str "CONCURRENCY") = none := by decide

/-- C10: for every page having at least one link outside the crawled-pages
set, `checkPageLinks` raises a ReferenceError before checking anything,
because its batch loop reads the unbound identifier `CONCURRENCY`; with an
empty filtered link list it completes normally. -/
theorem checkPageLinks_referenceError (page : PageData) (crawled : List (List Char))
    (oracle : List Char → CheckResult) :
    (page.links.filter (fun l => !decide (l.url ∈ crawled)) = [] →
      checkPageLinksModel page crawled oracle = .ok []) ∧
    (page.links.filter (fun l => !decide (l.url ∈ crawled)) ≠ [] →
      checkPageLinksModel page crawled oracle =
        .error (str "ReferenceError: CONCURRENCY is not defined")) := by
  constructor <;> intro h
  · unfold checkPageLinksModel
    rw [h]
    rfl
  · unfold checkPageLinksModel cplGo
    have hlen : ¬ (page.links.filter (fun l => !decide (l.url ∈ crawled))).length ≤ 0 := by
      simpa [List.length_eq_zero, Nat.le_zero] using h
    rw [if_neg hlen, moduleConst_concurrency]

/-- Witness for C10 at a concrete page with one uncrawled link. -/
theorem checkPageLinks_referenceError_witness :
    checkPageLinksModel ⟨str "http://x.com", [], [⟨str "http://y.org", [], str "link"⟩], 1, 0, none⟩
        [] timeoutOracle =
      .error (str "ReferenceError: CONCURRENCY is not defined") :=
  (checkPageLinks_referenceError _ [] timeoutOracle).2 (by decide)

/-! ### C3: the circuit breaker -/

lemma consResult_log (u : List Char) (occ : List RawOcc) (r : CheckResult)
    (rest : DomainResults) : (consResult u occ r rest).log = u :: rest.log := by
  simp only [consResult]
  split_ifs <;> rfl

lemma consResult_broken_sub (u : List Char) (occ : List RawOcc) (r : CheckResult)
    (rest : DomainResults) :
    ∀ b ∈ (consResult u occ r rest).broken, b.url = u ∨ b ∈ rest.broken := by
  simp only [consResult]
  split_ifs <;> intro b hb <;> simp_all
  rcases hb with hb | hb
  · left; rw [hb]
  · right; exact hb

lemma consResult_mergeSplit (u : List Char) (occ : List RawOcc) (r : CheckResult)
    (pre : DomainResults) (tw : List Verdict) :
    consResult u occ r (mergeSplit pre tw) = mergeSplit (consResult u occ r pre) tw := by
  simp only [consResult, mergeSplit]
  split_ifs <;> simp

lemma processAll_log (oracle : List Char → CheckResult)
    (l : List ((List Char) × List RawOcc)) :
    (processAll oracle l).log = l.map (fun e => e.1) := by
  induction l with
  | nil => rfl
  | cons e rest ih => simp [processAll, consResult_log, ih]

lemma processAll_broken_urls (oracle : List Char → CheckResult)
    (l : List ((List Char) × List RawOcc)) :
    ∀ b ∈ (processAll oracle l).broken, b.url ∈ l.map (fun e => e.1) := by
  induction l with
  | nil => intro b hb; simp [processAll, emptyDomainResults] at hb
  | cons e rest ih =>
    intro b hb
    rcases consResult_broken_sub e.1 e.2 (oracle e.1) (processAll oracle rest) b hb with
      h | h
    · simp [h]
    · simp [ih b h]

/-- Splitting a `checkDomainLinks` run at the first point where the
consecutive-failure counter reaches the threshold: the prefix is processed
as if no breaker existed and the whole remainder becomes unable-to-verify
warnings. -/
lemma cdlGo_split (oracle : List Char → CheckResult) :
    ∀ (k : Nat) (links : List ((List Char) × List RawOcc)) (cf : Nat),
    (links.take k).foldl (fun c e => failureStep c (oracle e.1)) cf =
      CIRCUIT_BREAKER_THRESHOLD →
    (∀ j < k, (links.take j).foldl (fun c e => failureStep c (oracle e.1)) cf <
      CIRCUIT_BREAKER_THRESHOLD) →
    cdlGo oracle cf links =
      mergeSplit (processAll oracle (links.take k)) ((links.drop k).map unableWarning) := by
  intro k
  induction k with
  | zero =>
    intro links cf hk _
    simp only [List.take_zero, List.foldl_nil] at hk
    subst hk
    cases links with
    | nil => simp [cdlGo, processAll, mergeSplit]
    | cons e rest =>
      rw [cdlGo, if_pos (le_refl _)]
      simp [processAll, mergeSplit, emptyDomainResults]
  | succ k ih =>
    intro links cf hk hmin
    cases links with
    | nil =>
      have h0 := hmin 0 (Nat.succ_pos k)
      simp only [List.take_nil, List.foldl_nil] at h0 hk
      omega
    | cons e rest =>
      have h0 := hmin 0 (Nat.succ_pos k)
      simp only [List.take_zero, List.foldl_nil] at h0
      rw [cdlGo, if_neg (not_le.mpr h0)]
      simp only [List.take_succ_cons, List.foldl_cons] at hk
      have hmin' : ∀ j < k,
          (rest.take j).foldl (fun c e => failureStep c (oracle e.1))
            (failureStep cf (oracle e.1)) < CIRCUIT_BREAKER_THRESHOLD := by
        intro j hj
        have := hmin (j + 1) (Nat.succ_lt_succ hj)
        simpa using this
      show consResult e.1 e.2 (oracle e.1)
          (cdlGo oracle (failureStep cf (oracle e.1)) rest) = _
      rw [ih rest (failureStep cf (oracle e.1)) hk hmin']
      rw [consResult_mergeSplit]
      simp [processAll]

/-- C3: once the consecutive transport-failure counter of a domain reaches
the threshold of five, every remaining unchecked URL of the domain is
marked as an unable-to-verify warning, none of the remaining URLs is marked
broken, and no further network check is issued for the domain: the check
log covers exactly the links processed before the counter tripped. -/
theorem circuitBreaker_marks_remaining (oracle : List Char → CheckResult)
    (links : List ((List Char) × List RawOcc)) (k : Nat)
    (hk : cfAfter oracle links k = CIRCUIT_BREAKER_THRESHOLD)
    (hmin : ∀ j < k, cfAfter oracle links j < CIRCUIT_BREAKER_THRESHOLD)
    (hnd : (links.map (fun e => e.1)).Nodup) :
    (checkDomainLinksModel oracle links).log = (links.take k).map (fun e => e.1) ∧
    (checkDomainLinksModel oracle links).warnings =
      (processAll oracle (links.take k)).warnings ++
        (links.drop k).map unableWarning ∧
    (checkDomainLinksModel oracle links).broken =
      (processAll oracle (links.take k)).broken ∧
    ∀ e ∈ links.drop k, ∀ b ∈ (checkDomainLinksModel oracle links).broken,
      b.url ≠ e.1 := by
  have hsplit := cdlGo_split oracle k links 0 hk hmin
  unfold checkDomainLinksModel
  rw [hsplit]
  refine ⟨by simp [mergeSplit, processAll_log], by simp [mergeSplit], by simp [mergeSplit],
    ?_⟩
  intro e he b hb heq
  simp only [mergeSplit] at hb
  have hmem : b.url ∈ (links.map (fun e => e.1)).take k := by
    have := processAll_broken_urls oracle (links.take k) b hb
    simpa [List.map_take] using this
  have hmem2 : e.1 ∈ (links.map (fun e => e.1)).drop k := by
    have : e.1 ∈ (links.drop k).map (fun e => e.1) := List.mem_map_of_mem _ he
    simpa [List.map_drop] using this
  exact List.disjoint_take_drop hnd (le_refl k) hmem (heq ▸ hmem2)

/-- Witness for C3: six all-timeout links of one domain; the counter trips
after the fifth, the sixth is warned and never checked. -/
theorem circuitBreaker_marks_remaining_witness :
    (checkDomainLinksModel timeoutOracle sixLinks).log =
      (sixLinks.take 5).map (fun e => e.1) ∧
    (checkDomainLinksModel timeoutOracle sixLinks).warnings =
      (processAll timeoutOracle (sixLinks.take 5)).warnings ++
        (sixLinks.drop 5).map unableWarning ∧
    (checkDomainLinksModel timeoutOracle sixLinks).broken =
      (processAll timeoutOracle (sixLinks.take 5)).broken ∧
    ∀ e ∈ sixLinks.drop 5, ∀ b ∈ (checkDomainLinksModel timeoutOracle sixLinks).broken,
      b.url ≠ e.1 :=
  circuitBreaker_marks_remaining timeoutOracle sixLinks 5 (by decide) (by decide) (by decide)

/-! ### C6: the HEAD to GET fallback is dead for 404 and 405 -/

/-- C6 (failing input): on a URL whose HEAD probe answers 404 while a GET
would succeed, `checkUrl` returns the 404 failure after the single HEAD
call and never issues the GET that its fallback comment promises. -/
theorem checkUrl_head404_skips_get :
    checkUrlModel head404Oracle =
      (⟨false, 404, str "Not Found", false, []⟩, [Method.head]) ∧
    (head404Oracle 1 Method.get).ok = true := by
  constructor
  · rfl
  · rfl

/-! ### Structure of the collection and grouping maps -/

lemma pushAssoc_forall {β : Type} (P : List Char → β → Prop) :
    ∀ (m : List ((List Char) × List β)) (k : List Char) (o : β),
    (∀ g ∈ m, ∀ x ∈ g.2, P g.1 x) → P k o →
    ∀ g ∈ pushAssoc m k o, ∀ x ∈ g.2, P g.1 x := by
  intro m
  induction m with
  | nil =>
    intro k o _ ho g hg x hx
    simp [pushAssoc] at hg
    subst hg
    simp at hx
    subst hx
    exact ho
  | cons e rest ih =>
    intro k o hm ho g hg x hx
    by_cases hek : e.1 = k
    · simp only [pushAssoc, if_pos hek, List.mem_cons] at hg
      rcases hg with hg | hg
      · subst hg
        simp only [List.mem_append, List.mem_singleton] at hx
        rcases hx with hx | hx
        · exact hm e (by simp) x hx
        · subst hx
          simpa [hek] using ho
      · exact hm g (by simp [hg]) x hx
    · simp only [pushAssoc, if_neg hek, List.mem_cons] at hg
      rcases hg with hg | hg
      · subst hg
        exact hm g (by simp) x hx
      · exact ih k o (fun g hg => hm g (by simp [hg])) ho g hg x hx

lemma pushAssoc_mem_self {β : Type} :
    ∀ (m : List ((List Char) × List β)) (k : List Char) (o : β),
    ∃ g ∈ pushAssoc m k o, g.1 = k ∧ o ∈ g.2 := by
  intro m
  induction m with
  | nil =>
    intro k o
    exact ⟨(k, [o]), by simp [pushAssoc]⟩
  | cons e rest ih =>
    intro k o
    by_cases hek : e.1 = k
    · exact ⟨(e.1, e.2 ++ [o]), by simp [pushAssoc, hek], hek, by simp⟩
    · obtain ⟨g, hg, hgk, hgo⟩ := ih k o
      exact ⟨g, by simp [pushAssoc, hek, hg], hgk, hgo⟩

lemma pushAssoc_mem_mono {β : Type} :
    ∀ (m : List ((List Char) × List β)) (k' : List Char) (o' : β) (k : List Char) (x : β),
    (∃ g ∈ m, g.1 = k ∧ x ∈ g.2) → ∃ g ∈ pushAssoc m k' o', g.1 = k ∧ x ∈ g.2 := by
  intro m
  induction m with
  | nil =>
    intro k' o' k x h
    simp at h
  | cons e rest ih =>
    intro k' o' k x h
    obtain ⟨g, hg, hgk, hgx⟩ := h
    by_cases hek : e.1 = k'
    · simp only [List.mem_cons] at hg
      rcases hg with hg | hg
      · subst hg
        exact ⟨(g.1, g.2 ++ [o']), by simp [pushAssoc, hek], hgk, by simp [hgx]⟩
      · exact ⟨g, by simp [pushAssoc, hek, hg], hgk, hgx⟩
    · simp only [List.mem_cons] at hg
      rcases hg with hg | hg
      · subst hg
        exact ⟨g, by simp [pushAssoc, hek], hgk, hgx⟩
      · obtain ⟨g', hg', hgk', hgx'⟩ := ih k' o' k x ⟨g, hg, hgk, hgx⟩
        exact ⟨g', by simp [pushAssoc, hek, hg'], hgk', hgx'⟩

lemma groupFold_forall (Q : List Char → ((List Char) × List RawOcc) → Prop) :
    ∀ (l : List ((List Char) × List RawOcc))
      (acc : List ((List Char) × List ((List Char) × List RawOcc))),
    (∀ g ∈ acc, ∀ e ∈ g.2, Q g.1 e) →
    (∀ e ∈ l, ∀ d, getDomain e.1 = some d → Q d e) →
    ∀ g ∈ l.foldl groupStep acc, ∀ e ∈ g.2, Q g.1 e := by
  intro l
  induction l with
  | nil => intro acc hacc _; exact hacc
  | cons f rest ih =>
    intro acc hacc hl
    simp only [List.foldl_cons]
    apply ih
    · show ∀ g ∈ groupStep acc f, ∀ e ∈ g.2, Q g.1 e
      unfold groupStep
      cases hgd : getDomain f.1 with
      | none => exact hacc
      | some d => exact pushAssoc_forall Q acc d f hacc (hl f (by simp) d hgd)
    · intro e he d hd
      exact hl e (by simp [he]) d hd

lemma groupFold_mem_mono :
    ∀ (l : List ((List Char) × List RawOcc)) (acc) (d : List Char)
      (e : (List Char) × List RawOcc),
    (∃ g ∈ acc, g.1 = d ∧ e ∈ g.2) →
    ∃ g ∈ l.foldl groupStep acc, g.1 = d ∧ e ∈ g.2 := by
  intro l
  induction l with
  | nil => intro acc d e h; exact h
  | cons f rest ih =>
    intro acc d e h
    simp only [List.foldl_cons]
    apply ih
    show ∃ g ∈ groupStep acc f, g.1 = d ∧ e ∈ g.2
    unfold groupStep
    cases getDomain f.1 with
    | none => exact h
    | some d' => exact pushAssoc_mem_mono acc d' f d e h

lemma groupFold_mem_of_mem :
    ∀ (l : List ((List Char) × List RawOcc)) (acc) (e : (List Char) × List RawOcc)
      (d : List Char),
    e ∈ l → getDomain e.1 = some d →
    ∃ g ∈ l.foldl groupStep acc, g.1 = d ∧ e ∈ g.2 := by
  intro l
  induction l with
  | nil => intro acc e d he _; simp at he
  | cons f rest ih =>
    intro acc e d he hd
    simp only [List.mem_cons] at he
    simp only [List.foldl_cons]
    rcases he with he | he
    · subst he
      apply groupFold_mem_mono
      show ∃ g ∈ groupStep acc e, g.1 = d ∧ e ∈ g.2
      unfold groupStep
      rw [hd]
      exact pushAssoc_mem_self acc d e
    · exact ih (groupStep acc f) e d he hd

/-- Every entry of a domain group has that domain and came from the
filtered link map. -/
lemma domainGroups_sound (pages : List PageData) (crawled : List (List Char)) :
    ∀ g ∈ domainGroups pages crawled, ∀ e ∈ g.2,
      getDomain e.1 = some g.1 ∧ e ∈ filteredLinks pages crawled := by
  apply groupFold_forall (fun d e => getDomain e.1 = some d ∧ e ∈ filteredLinks pages crawled)
  · simp
  · intro e he d hd
    exact ⟨hd, he⟩

/-- Every filtered link with a parseable domain lands in the group of that
domain. -/
lemma domainGroups_complete (pages : List PageData) (crawled : List (List Char))
    (e : (List Char) × List RawOcc) (d : List Char)
    (he : e ∈ filteredLinks pages crawled) (hd : getDomain e.1 = some d) :
    ∃ g ∈ domainGroups pages crawled, g.1 = d ∧ e ∈ g.2 :=
  groupFold_mem_of_mem _ [] e d he hd

lemma pushAssoc_hasKey_mono {β : Type} :
    ∀ (m : List ((List Char) × List β)) (k' : List Char) (o : β) (u : List Char),
    (∃ e ∈ m, e.1 = u) → ∃ e ∈ pushAssoc m k' o, e.1 = u := by
  intro m
  induction m with
  | nil => intro k' o u h; simp at h
  | cons e rest ih =>
    intro k' o u h
    obtain ⟨f, hf, hfu⟩ := h
    by_cases hek : e.1 = k'
    · simp only [List.mem_cons] at hf
      rcases hf with hf | hf
      · subst hf
        exact ⟨(f.1, f.2 ++ [o]), by simp [pushAssoc, hek], hfu⟩
      · exact ⟨f, by simp [pushAssoc, hek, hf], hfu⟩
    · simp only [List.mem_cons] at hf
      rcases hf with hf | hf
      · subst hf
        exact ⟨f, by simp [pushAssoc, hek], hfu⟩
      · obtain ⟨f', hf', hfu'⟩ := ih k' o u ⟨f, hf, hfu⟩
        exact ⟨f', by simp [pushAssoc, hek, hf'], hfu'⟩

lemma pushAssoc_hasKey_self {β : Type} (m : List ((List Char) × List β))
    (k : List Char) (o : β) : ∃ e ∈ pushAssoc m k o, e.1 = k := by
  obtain ⟨g, hg, hgk, _⟩ := pushAssoc_mem_self m k o
  exact ⟨g, hg, hgk⟩

lemma linksFold_hasKey_mono :
    ∀ (links : List Link) (m : List ((List Char) × List RawOcc)) (pu u : List Char),
    (∃ e ∈ m, e.1 = u) →
    ∃ e ∈ links.foldl (fun m l => pushAssoc m l.url ⟨pu, l⟩) m, e.1 = u := by
  intro links
  induction links with
  | nil => intro m pu u h; exact h
  | cons l rest ih =>
    intro m pu u h
    exact ih _ pu u (pushAssoc_hasKey_mono m l.url ⟨pu, l⟩ u h)

lemma addPageLinks_hasKey (p : PageData) :
    ∀ (m : List ((List Char) × List RawOcc)) (l : Link), l ∈ p.links →
    ∃ e ∈ addPageLinks m p, e.1 = l.url := by
  unfold addPageLinks
  generalize p.links = links
  induction links with
  | nil => intro m l hl; simp at hl
  | cons l0 rest ih =>
    intro m l hl
    simp only [List.mem_cons] at hl
    simp only [List.foldl_cons]
    rcases hl with hl | hl
    · subst hl
      exact linksFold_hasKey_mono rest _ p.url l.url
        (pushAssoc_hasKey_self m l.url ⟨p.url, l⟩)
    · exact ih _ l hl

lemma pagesFold_hasKey_mono :
    ∀ (pages : List PageData) (m : List ((List Char) × List RawOcc)) (u : List Char),
    (∃ e ∈ m, e.1 = u) → ∃ e ∈ pages.foldl addPageLinks m, e.1 = u := by
  intro pages
  induction pages with
  | nil => intro m u h; exact h
  | cons p rest ih =>
    intro m u h
    exact ih _ u (linksFold_hasKey_mono p.links m p.url u h)

lemma pagesFold_hasKey :
    ∀ (pages : List PageData) (m : List ((List Char) × List RawOcc))
      (p : PageData) (l : Link), p ∈ pages → l ∈ p.links →
    ∃ e ∈ pages.foldl addPageLinks m, e.1 = l.url := by
  intro pages
  induction pages with
  | nil => intro m p l hp _; simp at hp
  | cons p0 rest ih =>
    intro m p l hp hl
    simp only [List.mem_cons] at hp
    simp only [List.foldl_cons]
    rcases hp with hp | hp
    · subst hp
      exact pagesFold_hasKey_mono rest _ l.url (addPageLinks_hasKey p m l hl)
    · exact ih _ p l hp hl

/-- A URL occurring as a link on some page is a key of the collected link
map. -/
lemma collectLinks_hasKey (pages : List PageData) (p : PageData) (l : Link)
    (hp : p ∈ pages) (hl : l ∈ p.links) :
    ∃ e ∈ collectLinks pages, e.1 = l.url :=
  pagesFold_hasKey pages [] p l hp hl

/-! ### Where the outputs of `checkDomainLinks` come from -/

lemma consResult_warnings_sub (u : List Char) (occ : List RawOcc) (r : CheckResult)
    (rest : DomainResults) :
    ∀ w ∈ (consResult u occ r rest).warnings, w.url = u ∨ w ∈ rest.warnings := by
  simp only [consResult]
  split_ifs <;> intro w hw
  · rcases List.mem_cons.mp hw with hw | hw
    · left; rw [hw]
    · right; exact hw
  · right; exact hw
  · right; exact hw
  · right; exact hw

lemma consResult_warnings_sup (u : List Char) (occ : List RawOcc) (r : CheckResult)
    (rest : DomainResults) :
    ∀ w ∈ rest.warnings, w ∈ (consResult u occ r rest).warnings := by
  simp only [consResult]
  split_ifs <;> intro w hw
  · exact List.mem_cons_of_mem _ hw
  · exact hw
  · exact hw
  · exact hw

lemma consResult_redirects_sub (u : List Char) (occ : List RawOcc) (r : CheckResult)
    (rest : DomainResults) :
    ∀ x ∈ (consResult u occ r rest).redirects, x.url = u ∨ x ∈ rest.redirects := by
  simp only [consResult]
  split_ifs <;> intro x hx
  · right; exact hx
  · right; exact hx
  · rcases List.mem_cons.mp hx with hx | hx
    · left; rw [hx]
    · right; exact hx
  · right; exact hx

lemma consResult_broken_cases (u : List Char) (occ : List RawOcc) (r : CheckResult)
    (rest : DomainResults) :
    ∀ b ∈ (consResult u occ r rest).broken,
      (b.status = r.status ∧ ¬(r.status = 403 ∨ r.status = 401)) ∨ b ∈ rest.broken := by
  simp only [consResult]
  split_ifs with h1 h2 h3 <;> intro b hb
  · right; exact hb
  · rcases List.mem_cons.mp hb with hb | hb
    · left; rw [hb]; exact ⟨rfl, h2⟩
    · right; exact hb
  · right; exact hb
  · right; exact hb

lemma cdlGo_log_sub (oracle : List Char → CheckResult) :
    ∀ (links : List ((List Char) × List RawOcc)) (cf : Nat),
    ∀ u ∈ (cdlGo oracle cf links).log, u ∈ links.map (fun e => e.1) := by
  intro links
  induction links with
  | nil => intro cf u hu; simp [cdlGo, emptyDomainResults] at hu
  | cons e rest ih =>
    intro cf u hu
    rw [cdlGo] at hu
    split_ifs at hu with hcf
    · simp [emptyDomainResults] at hu
    · simp only [consResult_log] at hu
      rcases List.mem_cons.mp hu with hu | hu
      · simp [hu]
      · simpa using Or.inr (List.mem_map.mp (ih _ u hu))

lemma cdlGo_broken_sub (oracle : List Char → CheckResult) :
    ∀ (links : List ((List Char) × List RawOcc)) (cf : Nat),
    ∀ b ∈ (cdlGo oracle cf links).broken, b.url ∈ links.map (fun e => e.1) := by
  intro links
  induction links with
  | nil => intro cf b hb; simp [cdlGo, emptyDomainResults] at hb
  | cons e rest ih =>
    intro cf b hb
    rw [cdlGo] at hb
    split_ifs at hb with hcf
    · simp [emptyDomainResults] at hb
    · simp only [] at hb
      rcases consResult_broken_sub e.1 e.2 (oracle e.1) _ b hb with h | h
      · simp [h]
      · simpa using Or.inr (List.mem_map.mp (ih _ b h))

lemma cdlGo_warnings_sub (oracle : List Char → CheckResult) :
    ∀ (links : List ((List Char) × List RawOcc)) (cf : Nat),
    ∀ w ∈ (cdlGo oracle cf links).warnings, w.url ∈ links.map (fun e => e.1) := by
  intro links
  induction links with
  | nil => intro cf w hw; simp [cdlGo, emptyDomainResults] at hw
  | cons e rest ih =>
    intro cf w hw
    rw [cdlGo] at hw
    split_ifs at hw with hcf
    · simp only [List.mem_map] at hw
      obtain ⟨x, hx, hxw⟩ := hw
      subst hxw
      simpa [unableWarning] using List.mem_map_of_mem (fun e => e.1) hx
    · simp only [] at hw
      rcases consResult_warnings_sub e.1 e.2 (oracle e.1) _ w hw with h | h
      · simp [h]
      · simpa using Or.inr (List.mem_map.mp (ih _ w h))

lemma cdlGo_redirects_sub (oracle : List Char → CheckResult) :
    ∀ (links : List ((List Char) × List RawOcc)) (cf : Nat),
    ∀ x ∈ (cdlGo oracle cf links).redirects, x.url ∈ links.map (fun e => e.1) := by
  intro links
  induction links with
  | nil => intro cf x hx; simp [cdlGo, emptyDomainResults] at hx
  | cons e rest ih =>
    intro cf x hx
    rw [cdlGo] at hx
    split_ifs at hx with hcf
    · simp [emptyDomainResults] at hx
    · simp only [] at hx
      rcases consResult_redirects_sub e.1 e.2 (oracle e.1) _ x hx with h | h
      · simp [h]
      · simpa using Or.inr (List.mem_map.mp (ih _ x h))

lemma cdlGo_broken_not_403 (oracle : List Char → CheckResult) :
    ∀ (links : List ((List Char) × List RawOcc)) (cf : Nat),
    ∀ b ∈ (cdlGo oracle cf links).broken, b.status ≠ 401 ∧ b.status ≠ 403 := by
  intro links
  induction links with
  | nil => intro cf b hb; simp [cdlGo, emptyDomainResults] at hb
  | cons e rest ih =>
    intro cf b hb
    rw [cdlGo] at hb
    split_ifs at hb with hcf
    · simp [emptyDomainResults] at hb
    · simp only [] at hb
      rcases consResult_broken_cases e.1 e.2 (oracle e.1) _ b hb with ⟨hs, hn⟩ | h
      · rw [hs]
        exact ⟨fun h401 => hn (Or.inr h401), fun h403 => hn (Or.inl h403)⟩
      · exact ih _ b h

lemma cdlGo_log_warning (oracle : List Char → CheckResult) :
    ∀ (links : List ((List Char) × List RawOcc)) (cf : Nat) (u : List Char),
    u ∈ (cdlGo oracle cf links).log → (oracle u).ok = false →
    ((oracle u).status = 401 ∨ (oracle u).status = 403) →
    ∃ w ∈ (cdlGo oracle cf links).warnings, w.url = u ∧ w.status = (oracle u).status := by
  intro links
  induction links with
  | nil => intro cf u hu _ _; simp [cdlGo, emptyDomainResults] at hu
  | cons e rest ih =>
    intro cf u hu hok hst
    rw [cdlGo] at hu ⊢
    split_ifs at hu ⊢ with hcf
    · simp [emptyDomainResults] at hu
    · simp only [consResult_log] at hu
      rcases List.mem_cons.mp hu with hu | hu
      · subst hu
        show ∃ w ∈ (consResult e.1 e.2 (oracle e.1) _).warnings, _
        simp only [consResult]
        rw [if_pos (by simp [hok]), if_pos hst.symm]
        exact ⟨_, List.mem_cons_self _ _, rfl, rfl⟩
      · obtain ⟨w, hw, hwu, hws⟩ := ih _ u hu hok hst
        exact ⟨w, consResult_warnings_sup e.1 e.2 (oracle e.1) _ w hw, hwu, hws⟩

/-! ### Structure of the `checkLinks` results -/

lemma filteredLinks_not_crawled (pages : List PageData) (crawled : List (List Char)) :
    ∀ e ∈ filteredLinks pages crawled, e.1 ∉ crawled := by
  intro e he
  unfold filteredLinks filterCrawled at he
  rw [List.mem_filter] at he
  simpa using he.2

lemma filteredLinks_hasKey (pages : List PageData) (crawled : List (List Char))
    (p : PageData) (l : Link) (u : List Char) (hp : p ∈ pages) (hl : l ∈ p.links)
    (hurl : l.url = u) (hc : u ∉ crawled) :
    ∃ e ∈ filteredLinks pages crawled, e.1 = u := by
  obtain ⟨e, he, heu⟩ := collectLinks_hasKey pages p l hp hl
  refine ⟨e, ?_, heu.trans hurl⟩
  unfold filteredLinks filterCrawled
  rw [List.mem_filter]
  refine ⟨he, ?_⟩
  simp [heu, hurl, hc]

lemma mem_log_structure (pages : List PageData) (crawled : List (List Char))
    (dns : List Char → Option (List Char)) (oracle : List Char → CheckResult)
    (u : List Char) (hu : u ∈ (checkLinksModel pages crawled dns oracle).log) :
    ∃ g ∈ liveGroups pages crawled dns, u ∈ (checkDomainLinksModel oracle g.2).log := by
  simp only [checkLinksModel, domainResultsList, List.mem_flatMap, List.mem_map] at hu
  obtain ⟨dr, ⟨g, hg, hgdr⟩, hudr⟩ := hu
  exact ⟨g, hg, hgdr ▸ hudr⟩

lemma mem_warnings_structure (pages : List PageData) (crawled : List (List Char))
    (dns : List Char → Option (List Char)) (oracle : List Char → CheckResult)
    (w : Verdict) (hw : w ∈ (checkLinksModel pages crawled dns oracle).warnings) :
    ∃ g ∈ liveGroups pages crawled dns, w ∈ (checkDomainLinksModel oracle g.2).warnings := by
  simp only [checkLinksModel, domainResultsList, List.mem_flatMap, List.mem_map] at hw
  obtain ⟨dr, ⟨g, hg, hgdr⟩, hwdr⟩ := hw
  exact ⟨g, hg, hgdr ▸ hwdr⟩

lemma mem_redirects_structure (pages : List PageData) (crawled : List (List Char))
    (dns : List Char → Option (List Char)) (oracle : List Char → CheckResult)
    (x : RedirectVerdict) (hx : x ∈ (checkLinksModel pages crawled dns oracle).redirects) :
    ∃ g ∈ liveGroups pages crawled dns, x ∈ (checkDomainLinksModel oracle g.2).redirects := by
  simp only [checkLinksModel, domainResultsList, List.mem_flatMap, List.mem_map] at hx
  obtain ⟨dr, ⟨g, hg, hgdr⟩, hxdr⟩ := hx
  exact ⟨g, hg, hgdr ▸ hxdr⟩

lemma mem_broken_structure (pages : List PageData) (crawled : List (List Char))
    (dns : List Char → Option (List Char)) (oracle : List Char → CheckResult)
    (b : Verdict) (hb : b ∈ (checkLinksModel pages crawled dns oracle).brokenLinks) :
    (∃ ge ∈ deadGroups pages crawled dns, b ∈ deadDomainVerdicts ge.2 ge.1) ∨
    ∃ g ∈ liveGroups pages crawled dns, b ∈ (checkDomainLinksModel oracle g.2).broken := by
  simp only [checkLinksModel, domainResultsList, List.mem_append, List.mem_flatMap,
    List.mem_map] at hb
  rcases hb with hb | hb
  · obtain ⟨ge, hge, hbge⟩ := hb
    exact Or.inl ⟨ge, hge, hbge⟩
  · obtain ⟨dr, ⟨g, hg, hgdr⟩, hbdr⟩ := hb
    exact Or.inr ⟨g, hg, hgdr ▸ hbdr⟩

/-- Every URL mentioned anywhere in the `checkLinks` results or its check
log is a key of the filtered link map. -/
lemma checkLinks_urls_from_filtered (pages : List PageData) (crawled : List (List Char))
    (dns : List Char → Option (List Char)) (oracle : List Char → CheckResult) :
    (∀ u ∈ (checkLinksModel pages crawled dns oracle).log,
       ∃ e ∈ filteredLinks pages crawled, e.1 = u) ∧
    (∀ b ∈ (checkLinksModel pages crawled dns oracle).brokenLinks,
       ∃ e ∈ filteredLinks pages crawled, e.1 = b.url) ∧
    (∀ w ∈ (checkLinksModel pages crawled dns oracle).warnings,
       ∃ e ∈ filteredLinks pages crawled, e.1 = w.url) ∧
    (∀ x ∈ (checkLinksModel pages crawled dns oracle).redirects,
       ∃ e ∈ filteredLinks pages crawled, e.1 = x.url) := by
  have hlive : ∀ g ∈ liveGroups pages crawled dns, ∀ e ∈ g.2,
      e ∈ filteredLinks pages crawled := by
    intro g hg e he
    have hgd : g ∈ domainGroups pages crawled := (List.mem_filter.mp hg).1
    exact (domainGroups_sound pages crawled g hgd e he).2
  have hkey : ∀ g ∈ liveGroups pages crawled dns, ∀ u,
      u ∈ g.2.map (fun e => e.1) → ∃ e ∈ filteredLinks pages crawled, e.1 = u := by
    intro g hg u hu
    obtain ⟨e, he, heu⟩ := List.mem_map.mp hu
    exact ⟨e, hlive g hg e he, heu⟩
  refine ⟨?_, ?_, ?_, ?_⟩
  · intro u hu
    obtain ⟨g, hg, hul⟩ := mem_log_structure pages crawled dns oracle u hu
    exact hkey g hg u (cdlGo_log_sub oracle g.2 0 u hul)
  · intro b hb
    rcases mem_broken_structure pages crawled dns oracle b hb with ⟨ge, hge, hbge⟩ | ⟨g, hg, hbg⟩
    · obtain ⟨g, hgm, hgeq⟩ := List.mem_filterMap.mp hge
      have hgd : g ∈ domainGroups pages crawled := hgm
      obtain ⟨e, he, hbe⟩ : ∃ e ∈ ge.1, b = ⟨e.1, 0, str "DNS lookup failed: " ++ ge.2, e.2.map mkOcc⟩ := by
        unfold deadDomainVerdicts at hbge
        obtain ⟨e, he, hbe⟩ := List.mem_map.mp hbge
        exact ⟨e, he, hbe.symm⟩
      have hge1 : ge.1 = g.2 := by
        rcases hdns : checkDomainDNSModel dns g.1 with _ | err
        · rw [hdns] at hgeq; simp at hgeq
        · rw [hdns] at hgeq
          simp only [Option.some.injEq] at hgeq
          rw [← hgeq]
      have hef : e ∈ filteredLinks pages crawled :=
        (domainGroups_sound pages crawled g hgd e (hge1 ▸ he)).2
      exact ⟨e, hef, by rw [hbe]⟩
    · exact hkey g hg b.url (cdlGo_broken_sub oracle g.2 0 b hbg)
  · intro w hw
    obtain ⟨g, hg, hwg⟩ := mem_warnings_structure pages crawled dns oracle w hw
    exact hkey g hg w.url (cdlGo_warnings_sub oracle g.2 0 w hwg)
  · intro x hx
    obtain ⟨g, hg, hxg⟩ := mem_redirects_structure pages crawled dns oracle x hx
    exact hkey g hg x.url (cdlGo_redirects_sub oracle g.2 0 x hxg)

/-! ### C4: the DNS pre-check short-circuits dead domains -/

/-- C4: for every hostname whose DNS pre-check fails, no individual HTTP
check is issued for any URL on that hostname, and every uncrawled link URL
on that hostname appears in the broken list with status 0 and a message
naming the DNS failure. -/
theorem dns_failure_short_circuit (pages : List PageData) (crawled : List (List Char))
    (dns : List Char → Option (List Char)) (oracle : List Char → CheckResult)
    (d err u : List Char)
    (hdns : checkDomainDNSModel dns d = some err)
    (hp : ∃ p ∈ pages, ∃ l ∈ p.links, l.url = u)
    (hc : u ∉ crawled)
    (hd : getDomain u = some d) :
    (∃ v ∈ (checkLinksModel pages crawled dns oracle).brokenLinks,
        v.url = u ∧ v.status = 0 ∧ v.message = str "DNS lookup failed: " ++ err) ∧
    u ∉ (checkLinksModel pages crawled dns oracle).log := by
  obtain ⟨p, hpm, l, hlm, hurl⟩ := hp
  obtain ⟨e, hef, heu⟩ := filteredLinks_hasKey pages crawled p l u hpm hlm hurl hc
  obtain ⟨g, hg, hgd, heg⟩ :=
    domainGroups_complete pages crawled e d hef (by rw [heu, hd])
  constructor
  · have hdead : (g.2, err) ∈ deadGroups pages crawled dns := by
      unfold deadGroups
      rw [List.mem_filterMap]
      refine ⟨g, hg, ?_⟩
      rw [hgd, hdns]
    refine ⟨⟨e.1, 0, str "DNS lookup failed: " ++ err, e.2.map mkOcc⟩, ?_, heu, rfl, rfl⟩
    simp only [checkLinksModel, List.mem_append]
    left
    rw [List.mem_flatMap]
    refine ⟨(g.2, err), hdead, ?_⟩
    unfold deadDomainVerdicts
    exact List.mem_map_of_mem _ heg
  · intro hu
    obtain ⟨g', hg', hul⟩ := mem_log_structure pages crawled dns oracle u hu
    have hgd' : g' ∈ domainGroups pages crawled := (List.mem_filter.mp hg').1
    have hlivene : (checkDomainDNSModel dns g'.1).isNone := by
      simpa using (List.mem_filter.mp hg').2
    obtain ⟨e', he', heu'⟩ := List.mem_map.mp (cdlGo_log_sub oracle g'.2 0 u hul)
    have hdom : getDomain e'.1 = some g'.1 :=
      (domainGroups_sound pages crawled g' hgd' e' he').1
    rw [heu', hd] at hdom
    rw [← Option.some.injEq d g'.1 |>.mp hdom, hdns] at hlivene
    simp at hlivene

/-- Witness for C4: one page linking to one URL of an unresolvable
domain. -/
theorem dns_failure_short_circuit_witness :
    (∃ v ∈ (checkLinksModel onePage [] noDns okOracle).brokenLinks,
        v.url = str "http://y.org/p" ∧ v.status = 0 ∧
          v.message = str "DNS lookup failed: " ++ str "ENOTFOUND") ∧
    (str "http://y.org/p") ∉ (checkLinksModel onePage [] noDns okOracle).log :=
  dns_failure_short_circuit onePage [] noDns okOracle (str "y.org") (str "ENOTFOUND")
    (str "http://y.org/p") (by decide) (by decide) (by decide) (by decide)

/-! ### C5: 403 and 401 go to warnings, not broken -/

/-- C5 (counterexample to the claim as stated): in the legacy simple
checker, a checked URL answering 403 lands in the broken list of the final
results, and that checker has no warnings list at all. -/
theorem legacy_403_lands_in_broken :
    (str "http://y.org/p") ∈ (legacyCheckLinks onePage status403Oracle).log ∧
    ∃ b ∈ (legacyCheckLinks onePage status403Oracle).brokenLinks,
      b.url = str "http://y.org/p" ∧ b.status = 403 := by decide

/-- C5 (amended): in the domain-grouped checker, the broken list of the
final results never contains a 401 or 403 verdict, and every checked URL
whose check result is a 401 or 403 failure yields a warnings entry. -/
theorem warnings_capture_403 (pages : List PageData) (crawled : List (List Char))
    (dns : List Char → Option (List Char)) (oracle : List Char → CheckResult) :
    (∀ b ∈ (checkLinksModel pages crawled dns oracle).brokenLinks,
        b.status ≠ 401 ∧ b.status ≠ 403) ∧
    (∀ u ∈ (checkLinksModel pages crawled dns oracle).log,
        (oracle u).ok = false → ((oracle u).status = 401 ∨ (oracle u).status = 403) →
        ∃ w ∈ (checkLinksModel pages crawled dns oracle).warnings,
          w.url = u ∧ w.status = (oracle u).status) := by
  constructor
  · intro b hb
    rcases mem_broken_structure pages crawled dns oracle b hb with ⟨ge, hge, hbge⟩ | ⟨g, hg, hbg⟩
    · unfold deadDomainVerdicts at hbge
      obtain ⟨e, he, hbe⟩ := List.mem_map.mp hbge
      rw [← hbe]
      exact ⟨by simp, by simp⟩
    · exact cdlGo_broken_not_403 oracle g.2 0 b hbg
  · intro u hu hok hst
    obtain ⟨g, hg, hul⟩ := mem_log_structure pages crawled dns oracle u hu
    obtain ⟨w, hw, hwu, hws⟩ := cdlGo_log_warning oracle g.2 0 u hul hok hst
    refine ⟨w, ?_, hwu, hws⟩
    simp only [checkLinksModel, domainResultsList, List.mem_flatMap, List.mem_map]
    exact ⟨checkDomainLinksModel oracle g.2, ⟨g, hg, rfl⟩, hw⟩

/-- Witness for C5: one page linking to a URL that answers 403; the verdict
is a warning with status 403. -/
theorem warnings_capture_403_witness :
    ∃ w ∈ (checkLinksModel onePage [] resolveAllDns status403Oracle).warnings,
      w.url = str "http://y.org/p" ∧
        w.status = (status403Oracle (str "http://y.org/p")).status :=
  (warnings_capture_403 onePage [] resolveAllDns status403Oracle).2
    (str "http://y.org/p") (by decide) (by decide) (by decide)

/-! ### C7: crawled pages are skipped by raw URL, not canonical URL -/

/-- C7 (counterexample to the claim as stated): a reference whose canonical
target is a crawled page but whose raw URL differs by a trailing slash is
not skipped; `checkLinks` issues a network check for it. -/
theorem crawled_normalization_not_skipped :
    normalizeUrl (str "http://x.com/a/") = some (str "http://x.com/a") ∧
    (str "http://x.com/a") ∈ slashCrawled ∧
    (str "http://x.com/a/") ∈
      (checkLinksModel slashPage slashCrawled resolveAllDns okOracle).log := by decide

/-- C7 (amended): a reference whose raw absolute URL is itself in the
crawled-pages set is skipped by `checkLinks`: no check is issued for it and
it appears in none of the broken, warning and redirect lists. -/
theorem crawled_url_never_rechecked (pages : List PageData) (crawled : List (List Char))
    (dns : List Char → Option (List Char)) (oracle : List Char → CheckResult)
    (u : List Char) (hu : u ∈ crawled) :
    u ∉ (checkLinksModel pages crawled dns oracle).log ∧
    (∀ b ∈ (checkLinksModel pages crawled dns oracle).brokenLinks, b.url ≠ u) ∧
    (∀ w ∈ (checkLinksModel pages crawled dns oracle).warnings, w.url ≠ u) ∧
    (∀ x ∈ (checkLinksModel pages crawled dns oracle).redirects, x.url ≠ u) := by
  obtain ⟨hlog, hbrk, hwarn, hred⟩ := checkLinks_urls_from_filtered pages crawled dns oracle
  refine ⟨?_, ?_, ?_, ?_⟩
  · intro hul
    obtain ⟨e, he, heu⟩ := hlog u hul
    exact filteredLinks_not_crawled pages crawled e he (heu ▸ hu)
  · intro b hb hbu
    obtain ⟨e, he, heu⟩ := hbrk b hb
    exact filteredLinks_not_crawled pages crawled e he ((heu.trans hbu) ▸ hu)
  · intro w hw hwu
    obtain ⟨e, he, heu⟩ := hwarn w hw
    exact filteredLinks_not_crawled pages crawled e he ((heu.trans hwu) ▸ hu)
  · intro x hx hxu
    obtain ⟨e, he, heu⟩ := hred x hx
    exact filteredLinks_not_crawled pages crawled e he ((heu.trans hxu) ▸ hu)

/-- Witness for C7 (amended): the crawled URL itself is never rechecked. -/
theorem crawled_url_never_rechecked_witness :
    (str "http://x.com") ∉
      (checkLinksModel slashPage slashCrawled resolveAllDns okOracle).log ∧
    (∀ b ∈ (checkLinksModel slashPage slashCrawled resolveAllDns okOracle).brokenLinks,
        b.url ≠ str "http://x.com") ∧
    (∀ w ∈ (checkLinksModel slashPage slashCrawled resolveAllDns okOracle).warnings,
        w.url ≠ str "http://x.com") ∧
    (∀ x ∈ (checkLinksModel slashPage slashCrawled resolveAllDns okOracle).redirects,
        x.url ≠ str "http://x.com") :=
  crawled_url_never_rechecked slashPage slashCrawled resolveAllDns okOracle
    (str "http://x.com") (by decide)

/-! ### The crawl scheduler invariant -/

lemma updateBaseHost_fields (s : CrawlState) (n : List Char) (f : Option (List Char)) :
    (updateBaseHost s n f).visited = s.visited ∧
    (updateBaseHost s n f).crawling = s.crawling ∧
    (updateBaseHost s n f).pages = s.pages ∧
    (updateBaseHost s n f).fetched = s.fetched ∧
    (updateBaseHost s n f).errored = s.errored := by
  unfold updateBaseHost
  rcases f with _ | f
  · exact ⟨rfl, rfl, rfl, rfl, rfl⟩
  · dsimp only
    split_ifs with h1
    · rcases parseUrl f with _ | nb
      · exact ⟨rfl, rfl, rfl, rfl, rfl⟩
      · dsimp only
        split_ifs <;> exact ⟨rfl, rfl, rfl, rfl, rfl⟩
    · exact ⟨rfl, rfl, rfl, rfl, rfl⟩

lemma processAnchor_fields (n : List Char) (acc : CrawlState × List Link)
    (h : (List Char) × (List Char)) :
    (processAnchor n acc h).1.visited = acc.1.visited ∧
    (processAnchor n acc h).1.crawling = acc.1.crawling ∧
    (processAnchor n acc h).1.pages = acc.1.pages ∧
    (processAnchor n acc h).1.fetched = acc.1.fetched ∧
    (processAnchor n acc h).1.errored = acc.1.errored := by
  unfold processAnchor
  cases toAbsoluteUrl h.1 n
  · exact ⟨rfl, rfl, rfl, rfl, rfl⟩
  · dsimp only
    split_ifs with h1
    · cases normalizeUrl _
      · exact ⟨rfl, rfl, rfl, rfl, rfl⟩
      · dsimp only
        split_ifs <;> exact ⟨rfl, rfl, rfl, rfl, rfl⟩
    · exact ⟨rfl, rfl, rfl, rfl, rfl⟩

lemma anchorsFold_fields (n : List Char) :
    ∀ (anchors : List ((List Char) × (List Char))) (acc : CrawlState × List Link),
    (anchors.foldl (processAnchor n) acc).1.visited = acc.1.visited ∧
    (anchors.foldl (processAnchor n) acc).1.crawling = acc.1.crawling ∧
    (anchors.foldl (processAnchor n) acc).1.pages = acc.1.pages ∧
    (anchors.foldl (processAnchor n) acc).1.fetched = acc.1.fetched ∧
    (anchors.foldl (processAnchor n) acc).1.errored = acc.1.errored := by
  intro anchors
  induction anchors with
  | nil => intro acc; exact ⟨rfl, rfl, rfl, rfl, rfl⟩
  | cons a rest ih =>
    intro acc
    simp only [List.foldl_cons]
    obtain ⟨h1, h2, h3, h4, h5⟩ := ih (processAnchor n acc a)
    obtain ⟨g1, g2, g3, g4, g5⟩ := processAnchor_fields n acc a
    exact ⟨h1.trans g1, h2.trans g2, h3.trans g3, h4.trans g4, h5.trans g5⟩

lemma finishHtml_fields (s : CrawlState) (n title : List Char)
    (anchors imgs : List ((List Char) × (List Char))) (finalUrl : Option (List Char)) :
    ∃ pg : PageData, pg.url = n ∧ pg.error = none ∧
      (finishHtml s n title anchors imgs finalUrl).visited = s.visited ∧
      (finishHtml s n title anchors imgs finalUrl).crawling = s.crawling.erase n ∧
      (finishHtml s n title anchors imgs finalUrl).pages = s.pages ++ [pg] ∧
      (finishHtml s n title anchors imgs finalUrl).fetched = s.fetched ∧
      (finishHtml s n title anchors imgs finalUrl).errored = s.errored := by
  obtain ⟨u1, u2, u3, u4, u5⟩ := updateBaseHost_fields s n finalUrl
  obtain ⟨a1, a2, a3, a4, a5⟩ :=
    anchorsFold_fields n anchors (updateBaseHost s n finalUrl, [])
  simp only [finishHtml]
  refine ⟨⟨n, title,
      (anchors.foldl (processAnchor n) (updateBaseHost s n finalUrl, [])).2 ++
        extractImages n imgs,
      (anchors.foldl (processAnchor n) (updateBaseHost s n finalUrl, [])).2.length,
      (extractImages n imgs).length, none⟩, rfl, rfl, ?_, ?_, ?_, ?_, ?_⟩
  · exact a1.trans u1
  · rw [a2, u2]
  · rw [a3, u3]
  · exact a4.trans u4
  · exact a5.trans u5

/-- Every step of the crawl scheduler preserves the invariant. -/
lemma crawlInv_step (s : CrawlState) (a : CrawlAction) (hs : CrawlInv s) :
    CrawlInv (stepCrawl s a) := by
  obtain ⟨hfv, hvn, hcn, hcv, hpn, hpv, hep⟩ := hs
  cases a with
  | start url =>
    show CrawlInv (match claimUrl { s with toVisit := s.toVisit.erase url } url with
      | none => { s with toVisit := s.toVisit.erase url }
      | some n => markStarted { s with toVisit := s.toVisit.erase url } n)
    rcases hcl : claimUrl { s with toVisit := s.toVisit.erase url } url with _ | n
    · exact ⟨hfv, hvn, hcn, hcv, hpn, hpv, hep⟩
    · have hnv : n ∉ s.visited ∧ n ∉ s.crawling := by
        unfold claimUrl at hcl
        cases hnu : normalizeUrl url with
        | none => rw [hnu] at hcl; exact absurd hcl (by simp)
        | some m =>
          rw [hnu] at hcl
          dsimp only at hcl
          split_ifs at hcl with hmem
          simp only [Option.some.injEq] at hcl
          subst hcl
          exact ⟨fun h => hmem (Or.inl h), fun h => hmem (Or.inr h)⟩
      show CrawlInv (markStarted { s with toVisit := s.toVisit.erase url } n)
      refine ⟨by simp only [markStarted]; rw [hfv], ?_, ?_, ?_, hpn, ?_, hep⟩
      · simp [markStarted, List.nodup_append, hvn, hnv.1]
      · simp [markStarted, List.nodup_append, hcn, hnv.2]
      · intro m hm
        rcases List.mem_append.mp hm with hm | hm
        · exact List.mem_append_left _ (hcv m hm)
        · exact List.mem_append_right _ hm
      · intro p hp
        refine ⟨List.mem_append_left _ (hpv p hp).1, ?_⟩
        intro hpc
        rcases List.mem_append.mp hpc with hpc | hpc
        · exact (hpv p hp).2 hpc
        · exact hnv.1 ((List.mem_singleton.mp hpc) ▸ (hpv p hp).1)
  | finishHtml n title anchors imgs finalUrl =>
    show CrawlInv (if n ∈ s.crawling then finishHtml s n title anchors imgs finalUrl else s)
    split_ifs with hnc
    · obtain ⟨pg, hpgu, hpge, f1, f2, f3, f4, f5⟩ :=
        finishHtml_fields s n title anchors imgs finalUrl
      refine ⟨by rw [f4, f1, hfv], by rw [f1]; exact hvn, ?_, ?_, ?_, ?_, ?_⟩
      · rw [f2]; exact hcn.erase n
      · intro m hm
        rw [f2] at hm
        rw [f1]
        exact hcv m (List.mem_of_mem_erase hm)
      · rw [f3]
        simp only [List.map_append, List.map_cons, List.map_nil]
        rw [List.nodup_append]
        refine ⟨hpn, by simp, ?_⟩
        intro x hx
        simp only [List.mem_map] at hx
        obtain ⟨p, hp, hpx⟩ := hx
        simp only [List.mem_singleton, hpgu]
        intro hxn
        have hpc : p.url ∈ s.crawling := by rw [hpx.trans hxn]; exact hnc
        exact (hpv p hp).2 hpc
      · intro p hp
        rw [f3] at hp
        rw [f1, f2]
        rcases List.mem_append.mp hp with hp | hp
        · exact ⟨(hpv p hp).1, fun hc => (hpv p hp).2 (List.mem_of_mem_erase hc)⟩
        · rw [List.mem_singleton.mp hp, hpgu]
          refine ⟨hcv n hnc, ?_⟩
          intro hc
          exact (hcn.mem_erase_iff.mp hc).1 rfl
      · intro pr hpr
        rw [f5] at hpr
        rw [f3]
        exact List.mem_append_left _ (hep pr hpr)
    · exact ⟨hfv, hvn, hcn, hcv, hpn, hpv, hep⟩
  | finishNotHtml n finalUrl =>
    show CrawlInv (if n ∈ s.crawling then finishNotHtml s n finalUrl else s)
    split_ifs with hnc
    · unfold finishNotHtml
      obtain ⟨u1, u2, u3, u4, u5⟩ := updateBaseHost_fields s n finalUrl
      refine ⟨by simp [u4, u1, hfv], by simp [u1]; exact hvn, ?_, ?_, ?_, ?_, ?_⟩
      · simp only [u2]; exact hcn.erase n
      · intro m hm
        simp only [u2] at hm
        simp only [u1]
        exact hcv m (List.mem_of_mem_erase hm)
      · simpa [u3] using hpn
      · intro p hp
        simp only [u3] at hp
        simp only [u1, u2]
        exact ⟨(hpv p hp).1, fun hc => (hpv p hp).2 (List.mem_of_mem_erase hc)⟩
      · intro pr hpr
        simp only [u5] at hpr
        simpa [u3] using hep pr hpr
    · exact ⟨hfv, hvn, hcn, hcv, hpn, hpv, hep⟩
  | finishErr n msg =>
    show CrawlInv (if n ∈ s.crawling then finishErr s n msg else s)
    split_ifs with hnc
    · unfold finishErr
      refine ⟨hfv, hvn, ?_, ?_, ?_, ?_, ?_⟩
      · exact hcn.erase n
      · intro m hm
        exact hcv m (List.mem_of_mem_erase hm)
      · simp only [List.map_append, List.map_cons, List.map_nil]
        rw [List.nodup_append]
        refine ⟨hpn, by simp, ?_⟩
        intro x hx
        simp only [List.mem_map] at hx
        obtain ⟨p, hp, hpx⟩ := hx
        simp only [List.mem_singleton, errorPage]
        intro hxn
        have hpc : p.url ∈ s.crawling := by rw [hpx.trans hxn]; exact hnc
        exact (hpv p hp).2 hpc
      · intro p hp
        rcases List.mem_append.mp hp with hp | hp
        · exact ⟨(hpv p hp).1, fun hc => (hpv p hp).2 (List.mem_of_mem_erase hc)⟩
        · rw [List.mem_singleton.mp hp]
          refine ⟨hcv n hnc, ?_⟩
          intro hc
          exact (hcn.mem_erase_iff.mp hc).1 rfl
      · intro pr hpr
        rcases List.mem_append.mp hpr with hpr | hpr
        · exact List.mem_append_left _ (hep pr hpr)
        · rw [List.mem_singleton.mp hpr]
          exact List.mem_append_right _ (by simp)
    · exact ⟨hfv, hvn, hcn, hcv, hpn, hpv, hep⟩

lemma crawlInv_run (s : CrawlState) (acts : List CrawlAction) (hs : CrawlInv s) :
    CrawlInv (runCrawl s acts) := by
  induction acts generalizing s with
  | nil => exact hs
  | cons a rest ih => exact ih (stepCrawl s a) (crawlInv_step s a hs)

lemma crawlInv_init (startUrl : List Char) : CrawlInv (initCrawl startUrl) := by
  refine ⟨rfl, ?_, ?_, ?_, ?_, ?_, ?_⟩ <;> simp [initCrawl]

lemma stepCrawl_pages_mono (s : CrawlState) (a : CrawlAction) :
    ∀ p ∈ s.pages, p ∈ (stepCrawl s a).pages := by
  intro p hp
  cases a with
  | start url =>
    show p ∈ (match claimUrl { s with toVisit := s.toVisit.erase url } url with
      | none => { s with toVisit := s.toVisit.erase url }
      | some n => markStarted { s with toVisit := s.toVisit.erase url } n).pages
    rcases claimUrl { s with toVisit := s.toVisit.erase url } url with _ | n
    · exact hp
    · exact hp
  | finishHtml n title anchors imgs finalUrl =>
    show p ∈ (if n ∈ s.crawling then finishHtml s n title anchors imgs finalUrl else s).pages
    split_ifs with hnc
    · obtain ⟨pg, -, -, -, -, f3, -, -⟩ := finishHtml_fields s n title anchors imgs finalUrl
      rw [f3]
      exact List.mem_append_left _ hp
    · exact hp
  | finishNotHtml n finalUrl =>
    show p ∈ (if n ∈ s.crawling then finishNotHtml s n finalUrl else s).pages
    split_ifs with hnc
    · obtain ⟨-, -, u3, -, -⟩ := updateBaseHost_fields s n finalUrl
      show p ∈ (updateBaseHost s n finalUrl).pages
      rw [u3]
      exact hp
    · exact hp
  | finishErr n msg =>
    show p ∈ (if n ∈ s.crawling then finishErr s n msg else s).pages
    split_ifs with hnc
    · exact List.mem_append_left _ hp
    · exact hp

lemma runCrawl_pages_mono (acts : List CrawlAction) :
    ∀ (s : CrawlState), ∀ p ∈ s.pages, p ∈ (runCrawl s acts).pages := by
  induction acts with
  | nil => intro s p hp; exact hp
  | cons a rest ih =>
    intro s p hp
    exact ih (stepCrawl s a) p (stepCrawl_pages_mono s a p hp)

/-! ### C1: the scheduler claim -/

/-- C1: over every seed, every site topology and every interleaving of
concurrent fetches (every action trace), `crawlWebsite` issues at most one
fetch per canonical URL and produces at most one page record per canonical
URL: a URL already in the visited or crawling set is never fetched again. -/
theorem crawl_fetches_once (startUrl : List Char) (acts : List CrawlAction) :
    (runCrawl (initCrawl startUrl) acts).fetched.Nodup ∧
    ((runCrawl (initCrawl startUrl) acts).pages.map (fun p => p.url)).Nodup := by
  obtain ⟨hfv, hvn, -, -, hpn, -, -⟩ :=
    crawlInv_run (initCrawl startUrl) acts (crawlInv_init startUrl)
  exact ⟨hfv ▸ hvn, hpn⟩

/-- The catch branch of `crawlPage`: every page whose fetch rejects (a
transport error, timeout or redirect overflow) yields exactly one terminal
page record for its canonical URL, carrying the error message and an empty
reference list; the URL was fetched exactly once (no retry), and the record
persists no matter how the crawl continues (the failure aborts nothing). -/
theorem failed_fetch_terminal_record (startUrl : List Char) (acts : List CrawlAction)
    (n msg : List Char)
    (he : (n, msg) ∈ (runCrawl (initCrawl startUrl) acts).errored) :
    errorPage n msg ∈ (runCrawl (initCrawl startUrl) acts).pages ∧
    (∀ p ∈ (runCrawl (initCrawl startUrl) acts).pages, p.url = n → p = errorPage n msg) ∧
    n ∈ (runCrawl (initCrawl startUrl) acts).fetched ∧
    (runCrawl (initCrawl startUrl) acts).fetched.Nodup ∧
    ∀ extra, errorPage n msg ∈ (runCrawl (initCrawl startUrl) (acts ++ extra)).pages := by
  obtain ⟨hfv, hvn, -, -, hpn, hpv, hep⟩ :=
    crawlInv_run (initCrawl startUrl) acts (crawlInv_init startUrl)
  have hpg : errorPage n msg ∈ (runCrawl (initCrawl startUrl) acts).pages :=
    hep (n, msg) he
  refine ⟨hpg, ?_, ?_, hfv ▸ hvn, ?_⟩
  · intro p hp hpu
    exact List.inj_on_of_nodup_map hpn hp hpg hpu
  · rw [hfv]
    exact (hpv _ hpg).1
  · intro extra
    rw [runCrawl, List.foldl_append]
    exact runCrawl_pages_mono extra _ (errorPage n msg) hpg

/-- The catch-branch theorem at a concrete trace: the seed is claimed as
its canonical URL, its fetch times out, and the crawl continues. -/
theorem failed_fetch_terminal_record_witness :
    errorPage (str "http://x.com/") (str "ETIMEDOUT") ∈
      (runCrawl (initCrawl (str "http://x.com")) errTrace).pages ∧
    (str "http://x.com/") ∈ (runCrawl (initCrawl (str "http://x.com")) errTrace).fetched ∧
    (runCrawl (initCrawl (str "http://x.com")) errTrace).fetched.Nodup ∧
    errorPage (str "http://x.com/") (str "ETIMEDOUT") ∈
      (runCrawl (initCrawl (str "http://x.com"))
        (errTrace ++ [CrawlAction.start (str "http://x.com/b")])).pages := by
  obtain ⟨h1, -, h3, h4, h5⟩ := failed_fetch_terminal_record (str "http://x.com") errTrace
    (str "http://x.com/") (str "ETIMEDOUT") (by decide)
  exact ⟨h1, h3, h4, h5 [CrawlAction.start (str "http://x.com/b")]⟩

/-! ### C8: a non-2xx status is not a fetch failure -/

/-- C8 (code bug): the claim counts a non-2xx HTTP status as a failed
fetch, but `fetchPage` resolves every non-redirect status and `crawlPage`
never reads it.  A page answering 404 with an HTML content type is
recorded as a normal page — the error field stays empty and its reference
is extracted, instead of the required terminal error record — and a 404
answer with a non-HTML content type leaves no page record at all; neither
case writes the error log the catch branch keeps. -/
theorem non2xx_fetch_no_error_record :
    ((crawlPageDispatch ok404Html (initCrawl (str "http://x.com/a"))
        (str "http://x.com/a")).pages.map (fun p => (p.url, p.error, p.linksCount))
      = [(str "http://x.com/a", none, 1)]) ∧
    (crawlPageDispatch ok404Html (initCrawl (str "http://x.com/a"))
        (str "http://x.com/a")).errored = [] ∧
    ((crawlPageDispatch ok404Plain (initCrawl (str "http://x.com/a"))
        (str "http://x.com/a")).pages.map (fun p => p.url) = []) ∧
    (crawlPageDispatch ok404Plain (initCrawl (str "http://x.com/a"))
        (str "http://x.com/a")).errored = [] := by decide

/-! ### The URL model: parsing the serialization back -/

lemma takeWhile_dropWhile_append (p : Char → Bool) :
    ∀ (xs ys : List Char), (∀ x ∈ xs, p x = true) →
    (∀ y t, ys = y :: t → p y = false) →
    (xs ++ ys).takeWhile p = xs ∧ (xs ++ ys).dropWhile p = ys := by
  intro xs
  induction xs with
  | nil =>
    intro ys _ h2
    cases ys with
    | nil => exact ⟨rfl, rfl⟩
    | cons y t =>
      have hy := h2 y t rfl
      exact ⟨by simp [List.takeWhile_cons, hy], by simp [List.dropWhile_cons, hy]⟩
  | cons x xs ih =>
    intro ys h1 h2
    have hx : p x = true := h1 x (by simp)
    obtain ⟨ht, hd⟩ := ih ys (fun c hc => h1 c (by simp [hc])) h2
    constructor
    · simp [List.takeWhile_cons, hx, ht]
    · simp [List.dropWhile_cons, hx, hd]

lemma dropWhile_head_not (p : Char → Bool) :
    ∀ (l : List Char) (c : Char) (t : List Char), l.dropWhile p = c :: t → p c = false := by
  intro l
  induction l with
  | nil => intro c t h; simp at h
  | cons a l ih =>
    intro c t h
    rw [List.dropWhile_cons] at h
    split_ifs at h with ha
    · exact ih c t h
    · injection h with h1 _
      rw [← h1]
      simpa using ha

lemma dropLast_append_right (xs : List Char) :
    ∀ (ys : List Char), ys ≠ [] → (xs ++ ys).dropLast = xs ++ ys.dropLast := by
  induction xs with
  | nil => intro ys _; simp
  | cons x xs ih =>
    intro ys h
    rw [List.cons_append]
    cases hxy : xs ++ ys with
    | nil => exact absurd (List.append_eq_nil.mp hxy).2 h
    | cons z zs =>
      rw [show (x :: z :: zs).dropLast = x :: (z :: zs).dropLast from rfl, ← hxy,
        ih ys h, List.cons_append]

lemma isPrefixOf_append_self : ∀ (xs ys : List Char), xs.isPrefixOf (xs ++ ys) = true := by
  intro xs ys
  induction xs with
  | nil => simp [List.isPrefixOf]
  | cons x xs ih => simp [List.isPrefixOf, ih]

/-- A list whose last two characters are `a` then `b` ends with `[a, b]`. -/
lemma ends_with_two (l : List Char) (a b : Char) (h1 : l.getLast? = some b)
    (h2 : l.dropLast.getLast? = some a) : [a, b] <:+ l := by
  have e1 : l.dropLast ++ [b] = l := List.dropLast_append_getLast? b h1
  have e2 : l.dropLast.dropLast ++ [a] = l.dropLast := List.dropLast_append_getLast? a h2
  refine ⟨l.dropLast.dropLast, ?_⟩
  rw [← e1, ← e2]
  simp

lemma splitScheme_http (r : List Char) :
    splitScheme (str "http://" ++ r) = some (str "http", r) := by
  unfold splitScheme
  rw [show (str "https://").isPrefixOf (str "http://" ++ r) = false from rfl,
    isPrefixOf_append_self]
  show some (str "http", (str "http://" ++ r).drop 7) = some (str "http", r)
  rfl

lemma splitScheme_https (r : List Char) :
    splitScheme (str "https://" ++ r) = some (str "https", r) := by
  unfold splitScheme
  rw [isPrefixOf_append_self]
  show some (str "https", (str "https://" ++ r).drop 8) = some (str "https", r)
  rfl

/-- The head of a non-empty `takeWhile` satisfies the predicate and heads
the original list. -/
lemma takeWhile_eq_cons (p : Char → Bool) (l : List Char) (c : Char) (t : List Char)
    (h : l.takeWhile p = c :: t) : p c = true ∧ ∃ t', l = c :: t' := by
  cases l with
  | nil => simp at h
  | cons a l' =>
    rw [List.takeWhile_cons] at h
    split_ifs at h with ha
    injection h with h1 _
    subst h1
    exact ⟨ha, l', rfl⟩

/-- Every URL produced by the parser is well formed: a literal scheme, a
non-empty host free of delimiters, a path starting with a slash and free of
`? #`, a query that is absent or starts with `?` and is free of `#`, and a
fragment that is absent or starts with `#`. -/
lemma parseUrl_wf (s : List Char) (u : UrlParts) (h : parseUrl s = some u) :
    (u.scheme = str "http" ∨ u.scheme = str "https") ∧
    u.host ≠ [] ∧ (∀ c ∈ u.host, hostChar c = true) ∧
    (∃ p', u.path = '/' :: p') ∧ (∀ c ∈ u.path, pathChar c = true) ∧
    (u.query = [] ∨ ∃ q, u.query = '?' :: q) ∧ (∀ c ∈ u.query, queryChar c = true) ∧
    (u.hash = [] ∨ ∃ hh, u.hash = '#' :: hh) := by
  unfold parseUrl at h
  cases hsp : splitScheme s with
  | none => rw [hsp] at h; exact absurd h (by simp)
  | some pr =>
    obtain ⟨sch, rest⟩ := pr
    rw [hsp] at h
    dsimp only at h
    by_cases hhost : rest.takeWhile hostChar = []
    · rw [if_pos hhost] at h
      exact absurd h (by simp)
    · rw [if_neg hhost] at h
      simp only [Option.some.injEq] at h
      subst h
      have hscheme : sch = str "http" ∨ sch = str "https" := by
        unfold splitScheme at hsp
        split_ifs at hsp <;> simp only [Option.some.injEq, Prod.mk.injEq] at hsp
        · exact Or.inr hsp.1.symm
        · exact Or.inl hsp.1.symm
      refine ⟨hscheme, hhost, ?_, ?_, ?_, ?_, ?_, ?_⟩
      · intro c hc
        exact List.mem_takeWhile_imp hc
      · -- the path starts with a slash
        show ∃ p', (if (rest.dropWhile hostChar).takeWhile pathChar = [] then ['/']
          else (rest.dropWhile hostChar).takeWhile pathChar) = '/' :: p'
        cases hp0 : (rest.dropWhile hostChar).takeWhile pathChar with
        | nil => exact ⟨[], by simp⟩
        | cons c t =>
          have hcs : c = '/' := by
            obtain ⟨hpc, t', ht'⟩ := takeWhile_eq_cons pathChar _ c t hp0
            have hc1 : hostChar c = false := dropWhile_head_not hostChar rest c t' ht'
            simp only [hostChar, Bool.not_eq_false', Bool.or_eq_true, beq_iff_eq] at hc1
            simp only [pathChar, Bool.not_eq_true', Bool.or_eq_false_iff,
              beq_eq_false_iff_ne, ne_eq] at hpc
            rcases hc1 with (h | h) | h
            · exact h
            · exact absurd h hpc.1
            · exact absurd h hpc.2
          exact ⟨t, by simp [hcs]⟩
      · intro c hc
        split_ifs at hc with hp0
        · rw [List.mem_singleton.mp hc]; rfl
        · exact List.mem_takeWhile_imp hc
      · -- the query is absent or starts with a question mark
        cases hq : ((rest.dropWhile hostChar).dropWhile pathChar).takeWhile queryChar with
        | nil => exact Or.inl rfl
        | cons c t =>
          have hcs : c = '?' := by
            obtain ⟨hqc, t', ht'⟩ := takeWhile_eq_cons queryChar _ c t hq
            have hc2 : pathChar c = false := dropWhile_head_not pathChar _ c t' ht'
            simp only [pathChar, Bool.not_eq_false', Bool.or_eq_true, beq_iff_eq] at hc2
            simp only [queryChar, Bool.not_eq_true', beq_eq_false_iff_ne, ne_eq] at hqc
            rcases hc2 with h | h
            · exact h
            · exact absurd h hqc
          exact Or.inr ⟨t, by rw [hcs]⟩
      · intro c hc
        exact List.mem_takeWhile_imp hc
      · -- the fragment is absent or starts with a hash mark
        cases hh : ((rest.dropWhile hostChar).dropWhile pathChar).dropWhile queryChar with
        | nil => exact Or.inl rfl
        | cons c t =>
          have hcq : queryChar c = false := dropWhile_head_not queryChar _ c t hh
          have hcs : c = '#' := by
            simpa [queryChar, Bool.not_eq_false', beq_iff_eq] using hcq
          exact Or.inr ⟨t, by rw [hcs]⟩

/-- Parsing the serialization of a well-formed URL recovers it. -/
theorem parseUrl_href (u : UrlParts)
    (hs : u.scheme = str "http" ∨ u.scheme = str "https")
    (hh0 : u.host ≠ []) (hh : ∀ c ∈ u.host, hostChar c = true)
    (hp0 : ∃ p', u.path = '/' :: p') (hp : ∀ c ∈ u.path, pathChar c = true)
    (hq0 : u.query = [] ∨ ∃ q, u.query = '?' :: q) (hq : ∀ c ∈ u.query, queryChar c = true)
    (hha0 : u.hash = [] ∨ ∃ hh2, u.hash = '#' :: hh2) :
    parseUrl (href u) = some u := by
  obtain ⟨p', hp'⟩ := hp0
  have hsp : splitScheme (href u) =
      some (u.scheme, u.host ++ (u.path ++ (u.query ++ u.hash))) := by
    rcases hs with hs | hs
    · have hform : href u = str "http://" ++ (u.host ++ (u.path ++ (u.query ++ u.hash))) := by
        rw [href, hs]
        simp only [List.append_assoc]
        rfl
      rw [hform, splitScheme_http, hs]
    · have hform : href u = str "https://" ++ (u.host ++ (u.path ++ (u.query ++ u.hash))) := by
        rw [href, hs]
        simp only [List.append_assoc]
        rfl
      rw [hform, splitScheme_https, hs]
  unfold parseUrl
  rw [hsp]
  dsimp only
  obtain ⟨htw, hdw⟩ := takeWhile_dropWhile_append hostChar u.host
    (u.path ++ (u.query ++ u.hash)) hh (by
      intro y t hyt
      rw [hp', List.cons_append] at hyt
      injection hyt with h1 _
      rw [← h1]
      rfl)
  rw [htw, hdw, if_neg hh0]
  obtain ⟨ptw, pdw⟩ := takeWhile_dropWhile_append pathChar u.path
    (u.query ++ u.hash) hp (by
      intro y t hyt
      rcases hq0 with hq0 | ⟨q, hq0⟩
      · rcases hha0 with hha0 | ⟨hh2, hha0⟩
        · rw [hq0, hha0] at hyt
          simp at hyt
        · rw [hq0, hha0] at hyt
          simp only [List.nil_append] at hyt
          injection hyt with h1 _
          rw [← h1]
          rfl
      · rw [hq0, List.cons_append] at hyt
        injection hyt with h1 _
        rw [← h1]
        rfl)
  rw [ptw, pdw]
  have hpne : u.path ≠ [] := by rw [hp']; simp
  rw [if_neg hpne]
  obtain ⟨qtw, qdw⟩ := takeWhile_dropWhile_append queryChar u.query u.hash hq (by
    intro y t hyt
    rcases hha0 with hha0 | ⟨hh2, hha0⟩
    · rw [hha0] at hyt; simp at hyt
    · rw [hha0] at hyt
      injection hyt with h1 _
      rw [← h1]
      rfl)
  rw [qtw, qdw]

/-- A well-formed fragment-free URL on which the trailing-slash strip does
not fire normalizes to itself. -/
lemma normalizeUrl_no_strip (v : UrlParts)
    (hs : v.scheme = str "http" ∨ v.scheme = str "https")
    (hh0 : v.host ≠ []) (hh : ∀ c ∈ v.host, hostChar c = true)
    (hp0 : ∃ p', v.path = '/' :: p') (hp : ∀ c ∈ v.path, pathChar c = true)
    (hq0 : v.query = [] ∨ ∃ q, v.query = '?' :: q) (hq : ∀ c ∈ v.query, queryChar c = true)
    (hhash : v.hash = [])
    (hnc : ¬ ((href v).getLast? = some '/' ∧ v.path ≠ str "/")) :
    normalizeUrl (href v) = some (href v) := by
  have hv : ({ v with hash := [] } : UrlParts) = v := by rw [← hhash]
  unfold normalizeUrl
  rw [parseUrl_href v hs hh0 hh hp0 hp hq0 hq (Or.inl hhash)]
  dsimp only
  rw [hv, if_neg hnc]

/-- The core of the amended idempotence claim: normalizing the output of
`normalizeUrl` is the identity whenever neither the path nor the query of
the input ends in a double slash. -/
theorem normalizeUrl_idem_aux (s t : List Char) (u : UrlParts)
    (hparse : parseUrl s = some u)
    (hpa : ¬ (str "//" <:+ u.path))
    (hqu : ¬ (str "//" <:+ u.query))
    (hnorm : normalizeUrl s = some t) :
    normalizeUrl t = some t := by
  obtain ⟨hsch, hh0, hh, hp0, hp, hq0, hq, -⟩ := parseUrl_wf s u hparse
  obtain ⟨p', hp'⟩ := hp0
  unfold normalizeUrl at hnorm
  rw [hparse] at hnorm
  dsimp only at hnorm
  split_ifs at hnorm with hc
  · -- the strip fired
    simp only [Option.some.injEq] at hnorm
    subst hnorm
    obtain ⟨hend, hroot⟩ := hc
    rcases hq0 with hq0 | ⟨q, hq0⟩
    · -- no query: the strip removed the last character of the path
      have hW : href { u with hash := [] } = (u.scheme ++ str "://" ++ u.host) ++ u.path := by
        show u.scheme ++ str "://" ++ u.host ++ u.path ++ u.query ++ [] = _
        rw [hq0]
        simp
      have hpne : u.path ≠ [] := by rw [hp']; simp
      have hpl : u.path.getLast? = some '/' := by
        rw [hW, List.getLast?_append_of_ne_nil _ hpne] at hend
        exact hend
      have hp'ne : p' ≠ [] := by
        intro hnil
        apply hroot
        show u.path = str "/"
        rw [hp', hnil]
        rfl
      obtain ⟨x, xs, hxs⟩ : ∃ x xs, p' = x :: xs := by
        cases p' with
        | nil => exact absurd rfl hp'ne
        | cons x xs => exact ⟨x, xs, rfl⟩
      have hdl : u.path.dropLast = '/' :: (x :: xs).dropLast := by
        rw [hp', hxs]
        rfl
      have hdlne : u.path.dropLast ≠ [] := by rw [hdl]; simp
      have ht : (href { u with hash := [] }).dropLast =
          (u.scheme ++ str "://" ++ u.host) ++ u.path.dropLast := by
        rw [hW, dropLast_append_right _ _ hpne]
      have hhref2 : href ⟨u.scheme, u.host, u.path.dropLast, [], []⟩ =
          (u.scheme ++ str "://" ++ u.host) ++ u.path.dropLast := by
        simp [href]
      have hnend : u.path.dropLast.getLast? ≠ some '/' := by
        intro hbad
        exact hpa (ends_with_two u.path '/' '/' hpl hbad)
      rw [ht, ← hhref2]
      apply normalizeUrl_no_strip ⟨u.scheme, u.host, u.path.dropLast, [], []⟩ hsch hh0 hh
        ⟨(x :: xs).dropLast, hdl⟩ (fun c hcm => hp c (List.mem_of_mem_dropLast hcm))
        (Or.inl rfl) (by simp) rfl
      intro hcc
      apply hnend
      have := hcc.1
      rw [hhref2, List.getLast?_append_of_ne_nil _ hdlne] at this
      exact this
    · -- a query is present: the strip removed the last character of the query
      have hqne : u.query ≠ [] := by rw [hq0]; simp
      have hW : href { u with hash := [] } =
          ((u.scheme ++ str "://" ++ u.host) ++ u.path) ++ u.query := by
        show u.scheme ++ str "://" ++ u.host ++ u.path ++ u.query ++ [] = _
        simp
      have hql : u.query.getLast? = some '/' := by
        rw [hW, List.getLast?_append_of_ne_nil _ hqne] at hend
        exact hend
      have hqne2 : q ≠ [] := by
        intro hnil
        rw [hq0, hnil] at hql
        simp at hql
      obtain ⟨x, xs, hxs⟩ : ∃ x xs, q = x :: xs := by
        cases q with
        | nil => exact absurd rfl hqne2
        | cons x xs => exact ⟨x, xs, rfl⟩
      have hdl : u.query.dropLast = '?' :: (x :: xs).dropLast := by
        rw [hq0, hxs]
        rfl
      have hdlne : u.query.dropLast ≠ [] := by rw [hdl]; simp
      have ht : (href { u with hash := [] }).dropLast =
          ((u.scheme ++ str "://" ++ u.host) ++ u.path) ++ u.query.dropLast := by
        rw [hW, dropLast_append_right _ _ hqne]
      have hhref2 : href ⟨u.scheme, u.host, u.path, u.query.dropLast, []⟩ =
          ((u.scheme ++ str "://" ++ u.host) ++ u.path) ++ u.query.dropLast := by
        simp [href]
      have hnend : u.query.dropLast.getLast? ≠ some '/' := by
        intro hbad
        exact hqu (ends_with_two u.query '/' '/' hql hbad)
      rw [ht, ← hhref2]
      apply normalizeUrl_no_strip ⟨u.scheme, u.host, u.path, u.query.dropLast, []⟩ hsch hh0 hh
        ⟨p', hp'⟩ hp (Or.inr ⟨(x :: xs).dropLast, hdl⟩)
        (fun c hcm => hq c (List.mem_of_mem_dropLast hcm)) rfl
      intro hcc
      apply hnend
      have := hcc.1
      rw [hhref2, List.getLast?_append_of_ne_nil _ hdlne] at this
      exact this
  · -- the strip did not fire: the normal form is the fragment-free URL
    simp only [Option.some.injEq] at hnorm
    subst hnorm
    exact normalizeUrl_no_strip { u with hash := [] } hsch hh0 hh ⟨p', hp'⟩ hp hq0 hq rfl hc

/-- C9 (counterexample to the claim as stated): `normalizeUrl` is not
idempotent on every parseable URL: on `http://x.com/a//` one application
strips one trailing slash and a second application strips another, so
normalize of normalize differs from normalize. -/
theorem normalizeUrl_not_idempotent :
    normalizeUrl (str "http://x.com/a//") = some (str "http://x.com/a/") ∧
    normalizeUrl (str "http://x.com/a/") = some (str "http://x.com/a") ∧
    str "http://x.com/a" ≠ str "http://x.com/a/" :=
  ⟨by decide, by decide, by decide⟩

/-- C9 (amended): `normalizeUrl` is idempotent on every parseable URL whose
path and query do not end in a double slash — normalizing an already
normalized such URL returns it unchanged — and it maps a URL with a single
non-root trailing slash and its slashless form to the same canonical
URL. -/
theorem normalizeUrl_idempotent_amended :
    (∀ s t u, parseUrl s = some u → ¬ (str "//" <:+ u.path) → ¬ (str "//" <:+ u.query) →
      normalizeUrl s = some t → normalizeUrl t = some t) ∧
    normalizeUrl (str "http://x.com/a/") = normalizeUrl (str "http://x.com/a") :=
  ⟨fun s t u h1 h2 h3 h4 => normalizeUrl_idem_aux s t u h1 h2 h3 h4, by decide⟩

/-- Witness for C9 (amended) on the spec's own example pair. -/
theorem normalizeUrl_idempotent_amended_witness :
    normalizeUrl (str "http://x.com/a") = some (str "http://x.com/a") :=
  normalizeUrl_idempotent_amended.1 (str "http://x.com/a/") (str "http://x.com/a")
    ⟨str "http", str "x.com", str "/a/", [], []⟩ (by decide) (by decide) (by decide)
    (by decide)

/-! ### C2: completeness of the deterministic crawl -/

lemma updateBaseHost_self (s : CrawlState) (n : List Char) :
    updateBaseHost s n (some n) = s := by
  unfold updateBaseHost
  simp

lemma claimUrl_none_covered (s : CrawlState) (url : List Char)
    (h : claimUrl s url = none) :
    ∀ m, normalizeUrl url = some m → m ∈ s.visited ∨ m ∈ s.crawling := by
  intro m hm
  unfold claimUrl at h
  rw [hm] at h
  dsimp only at h
  split_ifs at h with hmem
  exact hmem

lemma claimUrl_some_spec (s : CrawlState) (url n : List Char)
    (h : claimUrl s url = some n) :
    normalizeUrl url = some n ∧ n ∉ s.visited ∧ n ∉ s.crawling := by
  unfold claimUrl at h
  cases hnu : normalizeUrl url with
  | none => rw [hnu] at h; exact absurd h (by simp)
  | some m =>
    rw [hnu] at h
    dsimp only at h
    split_ifs at h with hmem
    simp only [Option.some.injEq] at h
    subst h
    exact ⟨rfl, fun hv => hmem (Or.inl hv), fun hc => hmem (Or.inr hc)⟩

lemma processAnchor_baseHost (n : List Char) (acc : CrawlState × List Link)
    (hr : (List Char) × (List Char)) :
    (processAnchor n acc hr).1.baseHost = acc.1.baseHost := by
  unfold processAnchor
  cases toAbsoluteUrl hr.1 n
  · rfl
  · dsimp only
    split_ifs with h1
    · cases normalizeUrl _
      · rfl
      · dsimp only
        split_ifs <;> rfl
    · rfl

lemma processAnchor_toVisit_mono (n : List Char) (acc : CrawlState × List Link)
    (hr : (List Char) × (List Char)) :
    ∀ b ∈ acc.1.toVisit, b ∈ (processAnchor n acc hr).1.toVisit := by
  intro b hb
  unfold processAnchor
  cases toAbsoluteUrl hr.1 n
  · exact hb
  · dsimp only
    split_ifs with h1
    · cases normalizeUrl _
      · exact hb
      · dsimp only
        split_ifs with h2
        · exact List.mem_append_left _ hb
        · exact hb
    · exact hb

lemma processAnchor_toVisit_new (n : List Char) (acc : CrawlState × List Link)
    (hr : (List Char) × (List Char)) :
    ∀ b ∈ (processAnchor n acc hr).1.toVisit, b ∈ acc.1.toVisit ∨
      (toAbsoluteUrl hr.1 n = some b ∧ isInternalUrl acc.1.baseHost b = true) := by
  intro b hb
  unfold processAnchor at hb
  cases hta : toAbsoluteUrl hr.1 n
  · rw [hta] at hb
    exact Or.inl hb
  · rw [hta] at hb
    dsimp only at hb
    split_ifs at hb with h1
    · cases hnm : normalizeUrl _
      · rw [hnm] at hb
        exact Or.inl hb
      · rw [hnm] at hb
        dsimp only at hb
        split_ifs at hb with h2
        · rcases List.mem_append.mp hb with hb | hb
          · exact Or.inl hb
          · rw [List.mem_singleton.mp hb]
            exact Or.inr ⟨rfl, h1⟩
        · exact Or.inl hb
    · exact Or.inl hb

lemma processAnchor_covers (n : List Char) (acc : CrawlState × List Link)
    (hr : (List Char) × (List Char))
    (hcv : ∀ c ∈ acc.1.crawling, c ∈ acc.1.visited) :
    ∀ a, toAbsoluteUrl hr.1 n = some a → isInternalUrl acc.1.baseHost a = true →
    ∀ m, normalizeUrl a = some m →
    m ∈ acc.1.visited ∨ ∃ b ∈ (processAnchor n acc hr).1.toVisit,
      normalizeUrl b = some m := by
  intro a hta hint m hnm
  unfold processAnchor
  rw [hta]
  dsimp only
  rw [if_pos hint, hnm]
  dsimp only
  split_ifs with hg
  · exact Or.inr ⟨a, by simp, hnm⟩
  · push_neg at hg
    by_cases hv : m ∈ acc.1.visited
    · exact Or.inl hv
    · by_cases hcw : m ∈ acc.1.crawling
      · exact Or.inl (hcv m hcw)
      · exact Or.inr ⟨a, hg hv hcw, hnm⟩

lemma finishHtml_toVisit (s : CrawlState) (n title : List Char)
    (anchors imgs : List ((List Char) × (List Char))) (finalUrl : Option (List Char)) :
    (finishHtml s n title anchors imgs finalUrl).toVisit =
      (anchors.foldl (processAnchor n) (updateBaseHost s n finalUrl, [])).1.toVisit := rfl

/-- The combined effect of the anchor loop on the queue: the base host is
unchanged, the queue only grows, every new queue entry is the absolute form
of one of the anchors and is internal, and every internal anchor's
canonical form is covered by the visited list or the final queue. -/
lemma anchorsFold_cover (n : List Char) :
    ∀ (anchors : List ((List Char) × (List Char))) (acc : CrawlState × List Link),
    (∀ c ∈ acc.1.crawling, c ∈ acc.1.visited) →
    ((anchors.foldl (processAnchor n) acc).1.baseHost = acc.1.baseHost) ∧
    (∀ b ∈ acc.1.toVisit, b ∈ (anchors.foldl (processAnchor n) acc).1.toVisit) ∧
    (∀ b ∈ (anchors.foldl (processAnchor n) acc).1.toVisit, b ∈ acc.1.toVisit ∨
      ∃ hr ∈ anchors, toAbsoluteUrl hr.1 n = some b ∧
        isInternalUrl acc.1.baseHost b = true) ∧
    (∀ hr ∈ anchors, ∀ a, toAbsoluteUrl hr.1 n = some a →
      isInternalUrl acc.1.baseHost a = true → ∀ m, normalizeUrl a = some m →
      m ∈ acc.1.visited ∨ ∃ b ∈ (anchors.foldl (processAnchor n) acc).1.toVisit,
        normalizeUrl b = some m) := by
  intro anchors
  induction anchors with
  | nil =>
    intro acc _
    exact ⟨rfl, fun b hb => hb, fun b hb => Or.inl hb, fun hr hhr => absurd hhr (by simp)⟩
  | cons hr rest ih =>
    intro acc hcv
    obtain ⟨pv, pc, pp, pf, pe⟩ := processAnchor_fields n acc hr
    have hcv' : ∀ c ∈ (processAnchor n acc hr).1.crawling,
        c ∈ (processAnchor n acc hr).1.visited := by
      intro c hc
      rw [pc] at hc
      rw [pv]
      exact hcv c hc
    obtain ⟨ibh, imono, inew, icov⟩ := ih (processAnchor n acc hr) hcv'
    have hbh := processAnchor_baseHost n acc hr
    simp only [List.foldl_cons]
    refine ⟨ibh.trans hbh, ?_, ?_, ?_⟩
    · intro b hb
      exact imono b (processAnchor_toVisit_mono n acc hr b hb)
    · intro b hb
      rcases inew b hb with hb2 | ⟨hr', hhr', hta', hint'⟩
      · rcases processAnchor_toVisit_new n acc hr b hb2 with hb3 | ⟨hta, hint⟩
        · exact Or.inl hb3
        · exact Or.inr ⟨hr, by simp, hta, hint⟩
      · exact Or.inr ⟨hr', by simp [hhr'], hta', by rw [← hbh]; exact hint'⟩
    · intro hr' hhr' a hta hint m hnm
      rcases List.mem_cons.mp hhr' with hhr' | hhr'
      · subst hhr'
        rcases processAnchor_covers n acc hr' hcv a hta hint m hnm with hv | ⟨b, hb, hbm⟩
        · exact Or.inl hv
        · exact Or.inr ⟨b, imono b hb, hbm⟩
      · rcases icov hr' hhr' a hta (by rw [hbh]; exact hint) m hnm with hv | hcovq
        · rw [pv] at hv
          exact Or.inl hv
        · exact Or.inr hcovq

lemma finishHtml_baseHost (s : CrawlState) (n title : List Char)
    (anchors imgs : List ((List Char) × (List Char))) (finalUrl : Option (List Char)) :
    (finishHtml s n title anchors imgs finalUrl).baseHost =
      (anchors.foldl (processAnchor n) (updateBaseHost s n finalUrl, [])).1.baseHost := rfl

/-- One `crawlPage` run preserves the crawl invariant, consuming the head
of the pending batch. -/
lemma crawlPageSync_inv (site : List ((List Char) × List (List Char)))
    (host seed : List Char) (s : CrawlState) (url : List Char)
    (pending : List (List Char))
    (hinv : SyncInvP site host seed s (url :: pending)) :
    SyncInvP site host seed (crawlPageSync site s url) pending := by
  obtain ⟨hbh, hcr, hnd, hvs, htv, hpd, hpg, hse, hcov⟩ := hinv
  unfold crawlPageSync
  cases hcl : claimUrl s url with
  | none =>
    refine ⟨hbh, hcr, hnd, hvs, htv, fun b hb => hpd b (by simp [hb]), hpg, ?_, ?_⟩
    · rcases hse with hse | hse | ⟨b, hb, hbm⟩
      · exact Or.inl hse
      · exact Or.inr (Or.inl hse)
      · rcases List.mem_cons.mp hb with hb | hb
        · rcases claimUrl_none_covered s url hcl seed (hb ▸ hbm) with hv | hc
          · exact Or.inl hv
          · rw [hcr] at hc
            simp at hc
        · exact Or.inr (Or.inr ⟨b, hb, hbm⟩)
    · intro v hv hr hhr a hta hint m hnm
      rcases hcov v hv hr hhr a hta hint m hnm with h | h | ⟨b, hb, hbm⟩
      · exact Or.inl h
      · exact Or.inr (Or.inl h)
      · rcases List.mem_cons.mp hb with hb | hb
        · rcases claimUrl_none_covered s url hcl m (hb ▸ hbm) with hv2 | hc2
          · exact Or.inl hv2
          · rw [hcr] at hc2
            simp at hc2
        · exact Or.inr (Or.inr ⟨b, hb, hbm⟩)
  | some n =>
    obtain ⟨hnu, hnv, hncw⟩ := claimUrl_some_spec s url n hcl
    have hreach : Reaches site host seed n := hpd url (by simp) n hnu
    have hub : updateBaseHost (markStarted s n) n (some n) = markStarted s n :=
      updateBaseHost_self _ n
    obtain ⟨pg, hpgu, hpge, f1, f2, f3, f4, f5⟩ :=
      finishHtml_fields (markStarted s n) n []
        ((siteHrefs site n).map (fun h => (h, ([] : List Char)))) [] (some n)
    have hcv1 : ∀ c ∈ (markStarted s n).crawling, c ∈ (markStarted s n).visited := by
      intro c hc
      have hc' : c ∈ s.crawling ++ [n] := hc
      rcases List.mem_append.mp hc' with hc2 | hc2
      · rw [hcr] at hc2
        simp at hc2
      · exact List.mem_append_right _ hc2
    obtain ⟨fbh, fmono, fnew, fcov⟩ := anchorsFold_cover n
      ((siteHrefs site n).map (fun h => (h, ([] : List Char))))
      (updateBaseHost (markStarted s n) n (some n), []) (by rw [hub]; exact hcv1)
    rw [hub] at fbh fmono fnew fcov
    refine ⟨?_, ?_, ?_, ?_, ?_, ?_, ?_, ?_, ?_⟩
    · rw [finishHtml_baseHost, hub, fbh]
      exact hbh
    · rw [f2]
      show ((s.crawling ++ [n]).erase n) = []
      rw [hcr]
      simp
    · rw [f1]
      show (s.visited ++ [n]).Nodup
      simp [List.nodup_append, hnd, hnv]
    · intro v hv
      rw [f1] at hv
      have hv' : v ∈ s.visited ++ [n] := hv
      rcases List.mem_append.mp hv' with h | h
      · exact hvs v h
      · rw [List.mem_singleton.mp h]
        exact hreach
    · intro b hb m hnm
      rw [finishHtml_toVisit, hub] at hb
      rcases fnew b hb with hb2 | ⟨hr, hhr, hta, hint⟩
      · exact htv b hb2 m hnm
      · obtain ⟨h0, hh0, hh0e⟩ := List.mem_map.mp hhr
        have hh1 : hr.1 = h0 := by rw [← hh0e]
        have hint' : isInternalUrl s.baseHost b = true := hint
        rw [hbh] at hint'
        exact Reaches.step hreach
          (show hr.1 ∈ siteHrefs site n by rw [hh1]; exact hh0) hta hint' hnm
    · intro b hb
      exact hpd b (List.mem_cons_of_mem _ hb)
    · intro v hv
      rw [f1] at hv
      rw [f3]
      have hv' : v ∈ s.visited ++ [n] := hv
      rw [List.map_append]
      rcases List.mem_append.mp hv' with h | h
      · exact List.mem_append_left _ (hpg v h)
      · rw [List.mem_singleton.mp h]
        apply List.mem_append_right
        simp [hpgu]
    · rcases hse with hse | ⟨b, hb, hbm⟩ | ⟨b, hb, hbm⟩
      · left
        rw [f1]
        exact List.mem_append_left _ hse
      · right; left
        exact ⟨b, by rw [finishHtml_toVisit, hub]; exact fmono b hb, hbm⟩
      · rcases List.mem_cons.mp hb with hb1 | hb1
        · left
          rw [f1]
          subst hb1
          rw [hnu] at hbm
          simp only [Option.some.injEq] at hbm
          rw [← hbm]
          exact List.mem_append_right _ (List.mem_singleton_self n)
        · exact Or.inr (Or.inr ⟨b, hb1, hbm⟩)
    · intro v hv hr hhr a hta hint m hnm
      rw [f1] at hv
      have hv' : v ∈ s.visited ++ [n] := hv
      rcases List.mem_append.mp hv' with hvv | hvv
      · rcases hcov v hvv hr hhr a hta hint m hnm with h | ⟨b, hb, hbm⟩ | ⟨b, hb, hbm⟩
        · left
          rw [f1]
          exact List.mem_append_left _ h
        · right; left
          exact ⟨b, by rw [finishHtml_toVisit, hub]; exact fmono b hb, hbm⟩
        · rcases List.mem_cons.mp hb with hb1 | hb1
          · left
            rw [f1]
            subst hb1
            rw [hnu] at hbm
            simp only [Option.some.injEq] at hbm
            rw [← hbm]
            exact List.mem_append_right _ (List.mem_singleton_self n)
          · exact Or.inr (Or.inr ⟨b, hb1, hbm⟩)
      · have hvn : v = n := List.mem_singleton.mp hvv
        rw [hvn] at hhr hta
        have hint' : isInternalUrl (markStarted s n, ([] : List Link)).1.baseHost a = true := by
          show isInternalUrl s.baseHost a = true
          rw [hbh]
          exact hint
        rcases fcov (hr, ([] : List Char)) (List.mem_map_of_mem _ hhr) a hta hint' m hnm with
          h | ⟨b, hb, hbm⟩
        · left
          rw [f1]
          exact h
        · right; left
          exact ⟨b, by rw [finishHtml_toVisit, hub]; exact hb, hbm⟩

/-- Processing a spliced batch front to back preserves the invariant. -/
lemma batchFold_inv (site : List ((List Char) × List (List Char))) (host seed : List Char) :
    ∀ (batch : List (List Char)) (s : CrawlState) (pending : List (List Char)),
    SyncInvP site host seed s (batch ++ pending) →
    SyncInvP site host seed (batch.foldl (crawlPageSync site) s) pending := by
  intro batch
  induction batch with
  | nil => intro s pending h; exact h
  | cons u rest ih =>
    intro s pending h
    exact ih (crawlPageSync site s u) pending
      (crawlPageSync_inv site host seed s u (rest ++ pending) h)

/-- Splicing a batch off the queue moves it into the pending slot of the
invariant. -/
lemma SyncInvP_split (site : List ((List Char) × List (List Char))) (host seed : List Char)
    (s : CrawlState) (bs : Nat) (hinv : SyncInvP site host seed s []) :
    SyncInvP site host seed { s with toVisit := s.toVisit.drop bs } (s.toVisit.take bs) := by
  obtain ⟨hbh, hcr, hnd, hvs, htv, _, hpg, hse, hcov⟩ := hinv
  refine ⟨hbh, hcr, hnd, hvs, ?_, ?_, hpg, ?_, ?_⟩
  · intro b hb
    exact htv b (List.mem_of_mem_drop hb)
  · intro b hb
    exact htv b (List.mem_of_mem_take hb)
  · rcases hse with hse | ⟨b, hb, hbm⟩ | ⟨b, hb, hbm⟩
    · exact Or.inl hse
    · rw [← List.take_append_drop bs s.toVisit] at hb
      rcases List.mem_append.mp hb with h | h
      · exact Or.inr (Or.inr ⟨b, h, hbm⟩)
      · exact Or.inr (Or.inl ⟨b, h, hbm⟩)
    · exact absurd hb (List.not_mem_nil b)
  · intro v hv hr hhr a hta hint m hnm
    rcases hcov v hv hr hhr a hta hint m hnm with h | ⟨b, hb, hbm⟩ | ⟨b, hb, hbm⟩
    · exact Or.inl h
    · rw [← List.take_append_drop bs s.toVisit] at hb
      rcases List.mem_append.mp hb with h2 | h2
      · exact Or.inr (Or.inr ⟨b, h2, hbm⟩)
      · exact Or.inr (Or.inl ⟨b, h2, hbm⟩)
    · exact absurd hb (List.not_mem_nil b)

/-- The main loop preserves the invariant, and a terminated crawl stopped
only because the queue drained or the page cap was reached. -/
lemma crawlLoop_inv (site : List ((List Char) × List (List Char))) (host seed : List Char) :
    ∀ (fuel : Nat) (s st : CrawlState),
    SyncInvP site host seed s [] →
    crawlLoop site fuel s = some st →
    SyncInvP site host seed st [] ∧ (st.toVisit = [] ∨ MAX_PAGES ≤ st.visited.length) := by
  intro fuel
  induction fuel with
  | zero =>
    intro s st _ h
    exact absurd h (by simp [crawlLoop])
  | succ fuel ih =>
    intro s st hinv h
    rw [crawlLoop] at h
    split_ifs at h with h1 h2
    · simp only [Option.some.injEq] at h
      subst h
      exact ⟨hinv, Or.inl h1⟩
    · simp only [Option.some.injEq] at h
      subst h
      exact ⟨hinv, Or.inr h2⟩
    · refine ih _ st ?_ h
      have hsplit := SyncInvP_split site host seed s
        (min (CRAWL_CONCURRENCY - s.crawling.length) s.toVisit.length) hinv
      exact batchFold_inv site host seed
        (s.toVisit.take (min (CRAWL_CONCURRENCY - s.crawling.length) s.toVisit.length))
        { s with toVisit :=
            s.toVisit.drop (min (CRAWL_CONCURRENCY - s.crawling.length) s.toVisit.length) }
        [] (by rw [List.append_nil]; exact hsplit)

/-- The empty site has no outgoing anchors anywhere. -/
lemma siteHrefs_nil (c : List Char) : siteHrefs [] c = [] := rfl

/-- C2: on a finite site whose pages all fetch successfully as HTML, the
crawl discovers every same-origin URL transitively reachable from the
canonical seed through anchor hrefs, up to the page cap: when
`crawlWebsite` terminates, each such URL has a page record.  `R` is any
enumeration of the reachable set, and the cap side condition is
`R.length ≤ MAX_PAGES`. -/
theorem crawl_discovers_reachable
    (site : List ((List Char) × List (List Char))) (startUrl seed host : List Char)
    (fuel : Nat) (st : CrawlState) (R : List (List Char))
    (hseed : normalizeUrl startUrl = some seed)
    (hhost : getDomain startUrl = some host)
    (hR : ∀ r, Reaches site host seed r → r ∈ R)
    (hRlen : R.length ≤ MAX_PAGES)
    (hrun : crawlWebsiteModel site startUrl fuel = some st) :
    ∀ r, Reaches site host seed r → r ∈ st.pages.map (fun p => p.url) := by
  have hinit : SyncInvP site host seed (initCrawl startUrl) [] := by
    refine ⟨?_, rfl, List.nodup_nil, ?_, ?_, ?_, ?_, ?_, ?_⟩
    · show (getDomain startUrl).getD [] = host
      rw [hhost]
      rfl
    · intro v hv
      exact absurd hv (List.not_mem_nil v)
    · intro b hb m hnm
      have hb1 : b = startUrl := List.mem_singleton.mp hb
      rw [hb1, hseed] at hnm
      simp only [Option.some.injEq] at hnm
      rw [← hnm]
      exact Reaches.base
    · intro b hb
      exact absurd hb (List.not_mem_nil b)
    · intro v hv
      exact absurd hv (List.not_mem_nil v)
    · exact Or.inr (Or.inl ⟨startUrl, List.mem_singleton_self _, hseed⟩)
    · intro v hv
      exact absurd hv (List.not_mem_nil v)
  obtain ⟨hfin, hstop⟩ := crawlLoop_inv site host seed fuel (initCrawl startUrl) st hinit hrun
  obtain ⟨hbh, hcr, hnd, hvs, htv, hpd, hpg, hse, hcov⟩ := hfin
  have hvisited : ∀ r, Reaches site host seed r → r ∈ st.visited := by
    rcases hstop with hq | hcap
    · have hseedv : seed ∈ st.visited := by
        rcases hse with h | ⟨b, hb, _⟩ | ⟨b, hb, _⟩
        · exact h
        · rw [hq] at hb
          exact absurd hb (List.not_mem_nil b)
        · exact absurd hb (List.not_mem_nil b)
      intro r hr
      induction hr with
      | base => exact hseedv
      | step hc hh ha hi hn ih =>
        rcases hcov _ ih _ hh _ ha hi _ hn with h | ⟨b, hb, _⟩ | ⟨b, hb, _⟩
        · exact h
        · rw [hq] at hb
          exact absurd hb (List.not_mem_nil b)
        · exact absurd hb (List.not_mem_nil b)
    · have hsub : st.visited.toFinset ⊆ R.toFinset := by
        intro x hx
        rw [List.mem_toFinset] at hx ⊢
        exact hR x (hvs x hx)
      have hcard : R.toFinset.card ≤ st.visited.toFinset.card := by
        have h1 : R.toFinset.card ≤ R.length := R.toFinset_card_le
        have h2 : st.visited.toFinset.card = st.visited.length :=
          List.toFinset_card_of_nodup hnd
        omega
      have heq : st.visited.toFinset = R.toFinset :=
        Finset.eq_of_subset_of_card_le hsub hcard
      intro r hr
      have hrR : r ∈ R := hR r hr
      have hrt : r ∈ st.visited.toFinset := by
        rw [heq, List.mem_toFinset]
        exact hrR
      rw [List.mem_toFinset] at hrt
      exact hrt
  intro r hr
  exact hpg r (hvisited r hr)

/-- On the empty site only the canonical seed is reachable. -/
lemma reaches_empty_site (host seed : List Char) :
    ∀ r, Reaches [] host seed r → r = seed := by
  intro r hr
  induction hr with
  | base => rfl
  | step hc hh ha hi hn ih =>
    rw [siteHrefs_nil] at hh
    exact absurd hh (List.not_mem_nil _)

/-- Witness for C2 at a concrete input: on the empty site with seed
`http://x.com/a`, the canonical seed itself is reachable and gets a page
record in the terminal crawl state. -/
theorem crawl_discovers_reachable_witness :
    str "http://x.com/a" ∈ c2WitnessState.pages.map (fun p => p.url) :=
  crawl_discovers_reachable [] (str "http://x.com/a") (str "http://x.com/a") (str "x.com")
    2 c2WitnessState [str "http://x.com/a"]
    (by decide) (by decide)
    (fun r hr => by
      rw [reaches_empty_site (str "x.com") (str "http://x.com/a") r hr]
      exact List.mem_singleton_self _)
    (by decide)
    (by rfl)
    (str "http://x.com/a") Reaches.base

end DeadLinks
